import Mathlib

/-!
# Randomness module of irishub (`app/v3/rand`)

`src/app/v3/rand/alias.go` re-exports the module's types and functions
(`MsgRequestRand`, `Rand`, `Request`, `Keeper`, `MakePRNG`, `GenerateRequestID`,
`CheckReqID`, ...) from `internal/types` and `internal/keeper`.  Those two packages
are not part of the available sources, so the definitions below that stand for them
are modelled from the specification (sections 3, 4 and 6) and say so in their doc
comments.  Byte layouts and the hash function, which the specification leaves to the
implementation, are taken as parameters (`Protocol`).
-/

namespace RandModule

/-- Byte strings; an element is read modulo 256 where its numeric value matters. -/
abbrev Bytes := List Nat

/-- Modelled from the spec: the configuration owned by the governance collaborator
(section 3): minimum and maximum permissible delay, oracle callback timeout in
blocks, and `RandPrec`, the decimal precision of produced values. -/
structure Config where
  minDelay : Nat
  maxDelay : Nat
  timeout : Nat
  randPrec : Nat
deriving DecidableEq, Repr

/-- Modelled from the spec: the protocol constants that the specification leaves to
the implementation (section 9, open question): the secure hash used to mix the seed
(`mix`), the number of high-order digest bytes read (`width`), the hash-based
identifier derivation of section 4.2 (`deriveID`), the handle under which the oracle
collaborator knows a request (`contextID`) and the address well-formedness test of the
account collaborator (`validConsumer`). -/
structure Protocol where
  mix : Bytes → Bytes
  width : Nat
  deriveID : Bytes → Nat → Bytes → Nat → Bytes
  contextID : Bytes → Bytes
  validConsumer : Bytes → Bool

/-- Fixed-precision decimal: `units / 10 ^ scale`. -/
structure Dec where
  units : Nat
  scale : Nat
deriving DecidableEq, Repr

/-- The rational number a fixed-precision decimal stands for. -/
def Dec.toRat (d : Dec) : ℚ := (d.units : ℚ) / (10 : ℚ) ^ d.scale

/-- Big-endian reading of a byte string as an unsigned integer. -/
def bytesToNat (bs : Bytes) : Nat := bs.foldl (fun acc b => acc * 256 + b % 256) 0

/-- The maximum value representable by an unsigned integer of `k` bytes. -/
def maxValue (k : Nat) : Nat := 256 ^ k - 1

/-- Modelled from the spec: `types.MakePRNG` (section 4.1).  The seed input is mixed
by the hash, the `width` high-order bytes of the digest are interpreted as an unsigned
integer, and that integer is normalised over the range of an unsigned integer of that
width, `256 ^ width` values, so that also the maximum representable value lands below 1:
the output domain is `[0,1)` (sections 3, 4.1 and 8).  The quotient is truncated to
`prec` decimal digits. -/
def MakePRNG (P : Protocol) (prec : Nat) (seed : Bytes) : Dec :=
  let n := bytesToNat ((P.mix seed).take P.width)
  { units := n * 10 ^ prec / 256 ^ P.width, scale := prec }

/-- Modelled from the spec: the seed input of section 4.1, the header hash of the
target height concatenated with the request identifier and, for oracle requests, the
oracle-supplied entropy. -/
def seedInput (headerHash id : Bytes) (entropy : Option Bytes) : Bytes :=
  headerHash ++ id ++ entropy.getD []

/-- Modelled from the spec: `types.Request`, the `RandomnessRequest` of section 3. -/
structure Request where
  id : Bytes
  consumer : Bytes
  submitHeight : Nat
  targetHeight : Nat
  oracleFlag : Bool
  oracleContextID : Option Bytes
deriving DecidableEq, Repr

/-- Modelled from the spec: `types.NewRequest`. -/
def NewRequest (id consumer : Bytes) (submitHeight targetHeight : Nat) (oracleFlag : Bool)
    (ctx : Option Bytes) : Request :=
  { id := id, consumer := consumer, submitHeight := submitHeight,
    targetHeight := targetHeight, oracleFlag := oracleFlag, oracleContextID := ctx }

/-- Modelled from the spec: `types.Rand`, the `RandomnessResult` of section 3. -/
structure Rand where
  requestID : Bytes
  height : Nat
  value : Dec
  seedSource : Bytes
deriving DecidableEq, Repr

/-- Modelled from the spec: `types.NewRand`. -/
def NewRand (requestID : Bytes) (height : Nat) (value : Dec) (seedSource : Bytes) : Rand :=
  { requestID := requestID, height := height, value := value, seedSource := seedSource }

/-- Modelled from the spec: an entry of the Oracle Bridge waiting set (sections 4.5 and
4.6): the parked request, the block-hash-based seed fixed when it matured, and the
height from which its timeout is counted. -/
structure Waiting where
  req : Request
  seed : Bytes
  since : Nat
deriving DecidableEq, Repr

/-- Modelled from the spec: the notifications of sections 4.4 to 4.6. -/
inductive Event where
  | admitted (id consumer : Bytes) (targetHeight : Nat)
  | resultReady (id : Bytes) (height : Nat) (value : Dec)
  | failed (id consumer : Bytes)
deriving DecidableEq, Repr

/-- Modelled from the spec: the error taxonomy of section 7. -/
inductive Err where
  | validation
  | notFound
  | duplicateRequest
  | invariantViolation
deriving DecidableEq, Repr

/-- Modelled from the spec: `keeper.Keeper`, the state handle of section 9: the Request
Store (primary index `requests`, height index `queue`), the Oracle Bridge waiting set,
the Result store and the emitted notifications. -/
structure Keeper where
  requests : List Request
  queue : List (Nat × Bytes)
  waiting : List Waiting
  results : List Rand
  events : List Event
deriving DecidableEq, Repr

/-- The keeper with empty stores. -/
def Keeper.empty : Keeper :=
  { requests := [], queue := [], waiting := [], results := [], events := [] }

/-- Modelled from the spec: `get(id)` of section 4.3. -/
def Keeper.get (k : Keeper) (id : Bytes) : Option Request :=
  k.requests.find? (fun r => decide (r.id = id))

/-- Modelled from the spec: the bucket of the pending queue for one height: the
identifiers maturing at that height, in insertion order. -/
def Keeper.bucket (k : Keeper) (h : Nat) : List Bytes :=
  (k.queue.filter (fun e => decide (e.1 = h))).map Prod.snd

/-- Modelled from the spec: `due(height)` of section 4.3; it reads the height bucket and
looks every identifier up in the primary index, removing nothing. -/
def Keeper.due (k : Keeper) (h : Nat) : List Request :=
  (k.bucket h).filterMap k.get

/-- Modelled from the spec: `insert(request)` of section 4.3. -/
def Keeper.insert (k : Keeper) (r : Request) : Except Err Keeper :=
  match k.get r.id with
  | some _ => .error .duplicateRequest
  | none =>
    .ok { k with requests := k.requests ++ [r],
                 queue := k.queue ++ [(r.targetHeight, r.id)] }

/-- Modelled from the spec: `remove(id)` of section 4.3. -/
def Keeper.remove (k : Keeper) (id : Bytes) : Except Err Keeper :=
  match k.get id with
  | none => .error .notFound
  | some _ =>
    .ok { k with requests := k.requests.filter (fun r => decide (r.id ≠ id)),
                 queue := k.queue.filter (fun e => decide (e.2 ≠ id)) }

/-- Modelled from the spec: the submit-request message of section 6. -/
structure MsgRequestRand where
  consumer : Bytes
  blockInterval : Nat
  oracle : Bool
deriving DecidableEq, Repr

/-- Modelled from the spec: `types.NewMsgRequestRand`. -/
def NewMsgRequestRand (consumer : Bytes) (blockInterval : Nat) (oracle : Bool) :
    MsgRequestRand :=
  { consumer := consumer, blockInterval := blockInterval, oracle := oracle }

/-- Modelled from the spec: the transaction and block metadata the identifier is derived
from (section 4.2): transaction hash, submit height, per-block sequence number. -/
structure TxCtx where
  txHash : Bytes
  height : Nat
  seq : Nat
deriving DecidableEq, Repr

/-- Modelled from the spec: `types.GenerateRequestID` (section 4.2): the hash of
transaction hash, submit height, consumer address and sequence number. -/
def GenerateRequestID (P : Protocol) (ctx : TxCtx) (consumer : Bytes) : Bytes :=
  P.deriveID ctx.txHash ctx.height consumer ctx.seq

/-- Modelled from the spec: Admission (sections 3, 4.4 and 8).  Validation in order: the
requested delay must be positive, it must lie within the configured bounds (not below the
minimum, not above the maximum permissible delay), and the derived identifier must not
already be present (checked by `insert`).  On success the request is inserted and a
request-admitted notification is emitted. -/
def admission (P : Protocol) (cfg : Config) (ctx : TxCtx) (m : MsgRequestRand) (k : Keeper) :
    Except Err Keeper :=
  if m.blockInterval = 0 then .error .validation
  else if m.blockInterval < cfg.minDelay then .error .validation
  else if cfg.maxDelay < m.blockInterval then .error .validation
  else
    let id := GenerateRequestID P ctx m.consumer
    let r := NewRequest id m.consumer ctx.height (ctx.height + m.blockInterval) m.oracle
      (if m.oracle then some (P.contextID id) else none)
    match k.insert r with
    | .error e => .error e
    | .ok k1 => .ok { k1 with events := k1.events ++ [Event.admitted id m.consumer r.targetHeight] }

/-- Modelled from the spec: the submit-request interface of section 6: a malformed
consumer is rejected, every other message goes through Admission. -/
def submitRequest (P : Protocol) (cfg : Config) (ctx : TxCtx) (m : MsgRequestRand)
    (k : Keeper) : Except Err Keeper :=
  if P.validConsumer m.consumer then admission P cfg ctx m k else .error .validation

/-- Modelled from the spec: the result the Maturity Processor persists for a native
request (section 4.5): the seed input is the header hash of the current block and the
request identifier, the value is what the PRNG engine makes of it. -/
def nativeRand (P : Protocol) (cfg : Config) (headerHash : Bytes) (h : Nat) (r : Request) :
    Rand :=
  NewRand r.id h (MakePRNG P cfg.randPrec (seedInput headerHash r.id none))
    (seedInput headerHash r.id none)

/-- Modelled from the spec: the waiting entry made for a due oracle request at height
`h` (section 4.5); its timeout is counted in blocks after admission (section 8), that is
from the submit height of the request. -/
def parked (headerHash : Bytes) (_h : Nat) (r : Request) : Waiting :=
  { req := r, seed := seedInput headerHash r.id none, since := r.submitHeight }

/-- Modelled from the spec: what the Maturity Processor does with one due request
(section 4.5).  A request that cannot be removed, or an oracle request without its
context identifier, is an invariant violation. -/
def processDue (P : Protocol) (cfg : Config) (headerHash : Bytes) (h : Nat) (k : Keeper)
    (r : Request) : Except Err Keeper :=
  match k.remove r.id with
  | .error _ => .error .invariantViolation
  | .ok k1 =>
    if r.oracleFlag then
      match r.oracleContextID with
      | none => .error .invariantViolation
      | some _ => .ok { k1 with waiting := k1.waiting ++ [parked headerHash h r] }
    else
      .ok { k1 with results := k1.results ++ [nativeRand P cfg headerHash h r],
                    events := k1.events ++
                      [Event.resultReady r.id h (nativeRand P cfg headerHash h r).value] }

/-- The due requests are processed one after the other, in the order given. -/
def processAll (P : Protocol) (cfg : Config) (headerHash : Bytes) (h : Nat) :
    Keeper → List Request → Except Err Keeper
  | k, [] => .ok k
  | k, r :: rs =>
    match processDue P cfg headerHash h k r with
    | .error e => .error e
    | .ok k1 => processAll P cfg headerHash h k1 rs

/-- Modelled from the spec: the Maturity Processor (section 4.5): fetch `due(h)` and
process every due request in bucket order. -/
def maturity (P : Protocol) (cfg : Config) (headerHash : Bytes) (h : Nat) (k : Keeper) :
    Except Err Keeper :=
  processAll P cfg headerHash h k (k.due h)

/-- A waiting entry has timed out at height `h` when `timeout` blocks have passed since
the height its timeout is counted from. -/
def Waiting.expired (cfg : Config) (h : Nat) (w : Waiting) : Bool :=
  decide (w.since + cfg.timeout ≤ h)

/-- Modelled from the spec: the `Failed` transition of the Oracle Bridge (section 4.6):
every timed-out entry is removed without a result and a failure notification carrying
request id and consumer is emitted. -/
def bridgeSweep (cfg : Config) (h : Nat) (k : Keeper) : Keeper :=
  { k with waiting := k.waiting.filter (fun w => !(w.expired cfg h)),
           events := k.events ++
             (k.waiting.filter (fun w => w.expired cfg h)).map
               (fun w => Event.failed w.req.id w.req.consumer) }

/-- Modelled from the spec: the oracle callback (sections 4.6 and 6).  A callback whose
context identifier matches no waiting entry is rejected as `NotFound`; otherwise the
entropy is combined with the block-hash-based seed, the result is persisted and the
bridge state is removed. -/
def oracleCallback (P : Protocol) (cfg : Config) (h : Nat) (ctxID entropy : Bytes)
    (k : Keeper) : Except Err Keeper :=
  match k.waiting.find? (fun w => decide (w.req.oracleContextID = some ctxID)) with
  | none => .error .notFound
  | some w =>
    let seed := w.seed ++ entropy
    let v := MakePRNG P cfg.randPrec seed
    .ok { k with waiting := k.waiting.filter (fun x => decide (x.req.oracleContextID ≠ some ctxID)),
                 results := k.results ++ [NewRand w.req.id h v seed],
                 events := k.events ++ [Event.resultReady w.req.id h v] }

/-- Modelled from the spec: the per-block work: the Maturity Processor for height `h`
followed by the timeout sweep of the Oracle Bridge. -/
def endBlock (P : Protocol) (cfg : Config) (headerHash : Bytes) (h : Nat) (k : Keeper) :
    Except Err Keeper :=
  match maturity P cfg headerHash h k with
  | .error e => .error e
  | .ok k1 => .ok (bridgeSweep cfg h k1)

/-- The ledger as this module sees it: the keeper, the height of the last block whose
processing completed, and the sequence number within the block under execution. -/
structure Sys where
  keeper : Keeper
  height : Nat
  seq : Nat
deriving DecidableEq, Repr

/-- What the surrounding ledger feeds the module: a submit-request transaction, an
oracle callback, or the end of the block under execution with its header hash. -/
inductive Input where
  | submit (txHash : Bytes) (msg : MsgRequestRand)
  | callback (ctxID entropy : Bytes)
  | endBlock (headerHash : Bytes)
deriving DecidableEq, Repr

/-- One input is applied to the ledger; the block under execution is `height + 1`.  A
rejected transaction or callback leaves the state as it was (section 7). -/
def step (P : Protocol) (cfg : Config) (s : Sys) : Input → Sys
  | .submit txHash msg =>
    match submitRequest P cfg ⟨txHash, s.height + 1, s.seq⟩ msg s.keeper with
    | .error _ => s
    | .ok k1 => { keeper := k1, height := s.height, seq := s.seq + 1 }
  | .callback ctxID entropy =>
    match oracleCallback P cfg (s.height + 1) ctxID entropy s.keeper with
    | .error _ => s
    | .ok k1 => { s with keeper := k1 }
  | .endBlock headerHash =>
    match endBlock P cfg headerHash (s.height + 1) s.keeper with
    | .error _ => s
    | .ok k1 => { keeper := k1, height := s.height + 1, seq := 0 }

/-- Consistency of the Request Store (section 3, PendingQueue invariant): identifiers
are unique in the primary index, the height index lists exactly the stored requests
under their target heights, and every oracle request carries its context identifier. -/
def Keeper.WF (k : Keeper) : Prop :=
  (k.requests.map Request.id).Nodup ∧
  k.queue = k.requests.map (fun r => (r.targetHeight, r.id)) ∧
  ∀ r ∈ k.requests, r.oracleFlag = true → r.oracleContextID ≠ none

instance (k : Keeper) : Decidable k.WF := by
  unfold Keeper.WF; infer_instance

/-- The results recorded for one request identifier. -/
def Keeper.resultsFor (k : Keeper) (id : Bytes) : List Rand :=
  k.results.filter (fun x => decide (x.requestID = id))

/-- A sequence of inputs is applied from left to right. -/
def run (P : Protocol) (cfg : Config) (s : Sys) (inputs : List Input) : Sys :=
  inputs.foldl (step P cfg) s

/-- The ledger before any request was admitted, with `h0` the last completed height. -/
def Sys.init (h0 : Nat) : Sys := { keeper := Keeper.empty, height := h0, seq := 0 }

/-- Number of end-of-block inputs in a sequence. -/
def countBlocks : List Input → Nat
  | [] => 0
  | .endBlock _ :: is => countBlocks is + 1
  | _ :: is => countBlocks is

/-- Neither store nor waiting set holds a request with identifier `id` or oracle
context identifier `c`. -/
def Keeper.Gone (k : Keeper) (id c : Bytes) : Prop :=
  (∀ r ∈ k.requests, r.id ≠ id ∧ r.oracleContextID ≠ some c) ∧
  (∀ w ∈ k.waiting, w.req.id ≠ id ∧ w.req.oracleContextID ≠ some c)

instance (k : Keeper) (id c : Bytes) : Decidable (k.Gone id c) := by
  unfold Keeper.Gone; infer_instance

/-- The waiting entry `w` is the only holder of its request identifier and of the oracle
context identifier `c` (identifiers are unique, section 4.2). -/
def Keeper.Solo (k : Keeper) (w : Waiting) (c : Bytes) : Prop :=
  (∀ r ∈ k.requests, r.id ≠ w.req.id ∧ r.oracleContextID ≠ some c) ∧
  (∀ x ∈ k.waiting, x ≠ w → x.req.id ≠ w.req.id ∧ x.req.oracleContextID ≠ some c)

instance (k : Keeper) (w : Waiting) (c : Bytes) : Decidable (k.Solo w c) := by
  unfold Keeper.Solo; infer_instance

/-- No submission in the sequence derives the request identifier `id` or the oracle
context identifier `c` again (uniqueness of identifiers, section 4.2). -/
def noReuse (P : Protocol) (cfg : Config) (id c : Bytes) : Sys → List Input → Bool
  | _, [] => true
  | s, i :: is =>
    (match i with
      | .submit txHash m =>
        decide (GenerateRequestID P ⟨txHash, s.height + 1, s.seq⟩ m.consumer ≠ id) &&
        decide (P.contextID (GenerateRequestID P ⟨txHash, s.height + 1, s.seq⟩ m.consumer) ≠ c)
      | _ => true) &&
    noReuse P cfg id c (step P cfg s i) is

/-- A small protocol instance for worked examples: the digest is the seed itself, two
digest bytes are read, and identifiers list the derivation inputs. -/
def demoProtocol : Protocol :=
  { mix := fun b => b, width := 2,
    deriveID := fun tx h c q => tx ++ [h] ++ c ++ [q],
    contextID := fun i => 0 :: i,
    validConsumer := fun c => decide (c.length = 2) }

/-- A configuration for worked examples. -/
def demoConfig : Config := { minDelay := 1, maxDelay := 10, timeout := 10, randPrec := 4 }

/-- A configuration whose minimum delay is above one block. -/
def boundedConfig : Config := { minDelay := 3, maxDelay := 10, timeout := 10, randPrec := 4 }

/-- A native request maturing at height 105, for worked examples. -/
def demoRequest : Request := NewRequest [9] [1, 2] 100 105 false none

/-- The keeper holding `demoRequest` and nothing else. -/
def demoKeeper : Keeper :=
  { requests := [demoRequest], queue := [(105, [9])], waiting := [], results := [],
    events := [] }

/-- The oracle request of the worked timeout example once it has matured: admitted in
block 50 with block interval 1, parked by the Maturity Processor at height 51, its
timeout counted from height 50. -/
def demoWaiting : Waiting :=
  { req := NewRequest [7, 50, 1, 2, 0] [1, 2] 50 51 true (some [0, 7, 50, 1, 2, 0]),
    seed := [9, 7, 50, 1, 2, 0], since := 50 }

/-- The inputs of the worked timeout example: an oracle request is submitted in block 50
with block interval 1, then `n` blocks end without a callback, the blocks 50 to
`49 + n`. -/
def demoOracleInputs (n : Nat) : List Input :=
  Input.submit [7] (NewMsgRequestRand [1, 2] 1 true) :: List.replicate n (Input.endBlock [9])

/-- The worked timeout example after block 59 has ended. -/
def demoOracleRun : Sys :=
  run demoProtocol demoConfig (Sys.init 49) (demoOracleInputs 10)

end RandModule

/-!
# Test helpers of the CLI tests (`cli_test/test_helpers.go`)

Go strings are modelled as lists of characters.  Functions of the Go standard library and
of the Cosmos SDK that the helpers call are modelled after their documentation and say so
in their doc comments; the codec and the file system are parameters.
-/

namespace CliTest

/-- Go strings, modelled as sequences of Unicode characters (well-formed UTF-8). -/
abbrev Str := List Char

/-- The `Fixtures` struct of `cli_test/test_helpers.go`; `T` stands for the `*testing.T`
handle. -/
structure Fixtures where
  BuildDir : Str
  RootDir : Str
  IrisdBinary : Str
  IriscliBinary : Str
  ChainID : Str
  RPCAddr : Str
  Port : Str
  IrisdHome : Str
  IriscliHome : Str
  P2PAddr : Str
  T : Nat
deriving DecidableEq, Repr

/-- Go `strings.Join`: the elements with `sep` between consecutive ones. -/
def stringsJoin (elems : List Str) (sep : Str) : Str :=
  match elems with
  | [] => []
  | [x] => x
  | x :: y :: rest => x ++ sep ++ stringsJoin (y :: rest) sep

/-- Go `strings.HasSuffix`. -/
def HasSuffix (s suffix : Str) : Bool :=
  decide (suffix.length ≤ s.length) && decide (s.drop (s.length - suffix.length) = suffix)

/-- Go `strings.TrimSuffix`: `s` without the trailing `suffix`, or `s` itself when it does
not end in `suffix`. -/
def TrimSuffix (s suffix : Str) : Str :=
  if HasSuffix s suffix then s.take (s.length - suffix.length) else s

/-- Go `unicode.IsSpace`: the Latin-1 space characters and the characters with the
Unicode White_Space property. -/
def IsSpace (c : Char) : Bool :=
  c = '\t' || c = '\n' || c = Char.ofNat 0x0B || c = Char.ofNat 0x0C || c = '\r' || c = ' ' ||
  c = Char.ofNat 0x85 || c = Char.ofNat 0xA0 || c = Char.ofNat 0x1680 ||
  (decide (0x2000 ≤ c.toNat) && decide (c.toNat ≤ 0x200A)) ||
  c = Char.ofNat 0x2028 || c = Char.ofNat 0x2029 || c = Char.ofNat 0x202F ||
  c = Char.ofNat 0x205F || c = Char.ofNat 0x3000

/-- Go `strings.TrimSpace`: all leading and trailing white space removed. -/
def TrimSpace (s : Str) : Str :=
  (s.dropWhile IsSpace).rdropWhile IsSpace

/-- The function `addFlags` of `test_helpers.go`: every flag is appended to the command
after one space, then the result is trimmed. -/
def addFlags (cmd : Str) (flags : List Str) : Str :=
  TrimSpace (flags.foldl (fun cmd f => cmd ++ (" ".toList ++ f)) cmd)

/-- The function `queryTags` of `test_helpers.go`: every tag is appended followed by `&`,
then one trailing `&` is trimmed. -/
def queryTags (tags : List Str) : Str :=
  TrimSuffix (tags.foldl (fun out tag => out ++ (tag ++ "&".toList)) []) "&".toList

/-- The tags joined with a single `&` between consecutive elements: the empty string for
no tag, the tag itself for one tag. -/
def joinedTags : List Str → Str
  | [] => []
  | [t] => t
  | t :: u :: rest => t ++ '&' :: joinedTags (u :: rest)

/-- The command followed by each flag in order, each preceded by exactly one space. -/
def withFlags (cmd : Str) : List Str → Str
  | [] => cmd
  | f :: fs => withFlags (cmd ++ ' ' :: f) fs

/-- The method `Fixtures.Flags`: `fmt.Sprintf("--home=%s --node=%s", f.IriscliHome,
f.RPCAddr)`.  The receiver is a pointer, so the fixtures after the call are returned with
the string. -/
def Fixtures.Flags (f : Fixtures) : Str × Fixtures :=
  ("--home=".toList ++ f.IriscliHome ++ " --node=".toList ++ f.RPCAddr, f)

/-- Go `path/filepath` on Unix: the elements of a path between separators `/` (an empty
path has the single empty element). -/
def splitSep : Str → List Str
  | [] => [[]]
  | c :: cs =>
    if c = '/' then [] :: splitSep cs
    else
      match splitSep cs with
      | [] => [[c]]
      | x :: xs => (c :: x) :: xs

/-- Go `filepath.Clean`, one path element: empty elements and `.` are dropped, `..`
removes the preceding element that is not itself `..`, is dropped at the root and is kept
otherwise; every other element is kept.  The elements kept so far are held most recent
first. -/
def cleanStep (rooted : Bool) (stack : List Str) (e : Str) : List Str :=
  if e = [] then stack
  else if e = ['.'] then stack
  else if e = ['.', '.'] then
    match stack with
    | [] => if rooted then [] else [e]
    | top :: rest => if top = ['.', '.'] then e :: stack else rest
  else e :: stack

/-- A path is rooted when it begins with the separator. -/
def isRooted (p : Str) : Bool := decide (p.head? = some '/')

/-- The elements of the cleaned path, in order. -/
def cleanElems (p : Str) : List Str :=
  ((splitSep p).foldl (cleanStep (isRooted p)) []).reverse

/-- The path with the elements given: rooted paths start with the separator, the empty
relative path is `.`. -/
def renderPath (rooted : Bool) (elems : List Str) : Str :=
  if rooted then '/' :: stringsJoin elems ['/']
  else if elems = [] then ['.'] else stringsJoin elems ['/']

/-- An ordinary path element: not empty, not `.`, not `..`, and without separator. -/
def IsName (e : Str) : Prop :=
  e ≠ [] ∧ e ≠ ['.'] ∧ e ≠ ['.', '.'] ∧ '/' ∉ e

instance (e : Str) : Decidable (IsName e) := by
  unfold IsName; infer_instance

/-- The elements kept by `Clean`, most recent first, are in normal form: every element
is `..` or an ordinary name, a rooted path has no `..`, and whatever precedes a `..` is
itself `..`. -/
def StackOK (rooted : Bool) (st : List Str) : Prop :=
  (∀ e ∈ st, e ≠ [] ∧ e ≠ ['.'] ∧ '/' ∉ e) ∧
  (rooted = true → ∀ e ∈ st, IsName e) ∧
  st.Chain' (fun newer older => newer = ['.', '.'] → older = ['.', '.'])

/-- Go `filepath.Clean` on Unix, following the rules of its documentation: multiple
separators become one, `.` elements are eliminated, inner `..` elements are eliminated
with the element before them, `..` elements that begin a rooted path are eliminated, and
the empty path becomes `.`. -/
def Clean (path : Str) : Str :=
  if path = [] then ['.'] else renderPath (isRooted path) (cleanElems path)

/-- Go `filepath.Join` on Unix: leading empty elements are ignored, the rest is joined
with the separator and cleaned; without a non-empty element the result is empty. -/
def Join (elem : List Str) : Str :=
  match elem.dropWhile (fun e => decide (e = [])) with
  | [] => []
  | e :: rest => Clean (stringsJoin (e :: rest) ['/'])

/-- The method `Fixtures.GenesisFile`. -/
def Fixtures.GenesisFile (f : Fixtures) : Str :=
  Join [f.IrisdHome, "config".toList, "genesis.json".toList]

/-- What `NewFixtures` obtains from its environment: the temporary directory, the two
free TCP addresses with the port of the first, the value of `BUILDDIR`, the absolute path
of `../build/`, and the `*testing.T` handle. -/
structure FixtureEnv where
  tmpDir : Str
  servAddr : Str
  port : Str
  p2pAddr : Str
  buildDirEnv : Str
  buildDirAbs : Str
  t : Nat
deriving DecidableEq, Repr

/-- The function `NewFixtures`, on the path where no call of the environment fails. -/
def NewFixtures (e : FixtureEnv) : Fixtures :=
  let buildDir := if e.buildDirEnv = [] then e.buildDirAbs else e.buildDirEnv
  { T := e.t
    BuildDir := buildDir
    RootDir := e.tmpDir
    IrisdBinary := Join [buildDir, "iris".toList]
    IriscliBinary := Join [buildDir, "iriscli".toList]
    IrisdHome := Join [e.tmpDir, ".iris".toList]
    IriscliHome := Join [e.tmpDir, ".iriscli".toList]
    RPCAddr := e.servAddr
    P2PAddr := e.p2pAddr
    Port := e.port
    ChainID := [] }

/-- An environment for worked examples. -/
def demoEnv : FixtureEnv :=
  { tmpDir := "/tmp/iris_integration_x".toList
    servAddr := "tcp://0.0.0.0:26657".toList
    port := "26657".toList
    p2pAddr := "tcp://0.0.0.0:26656".toList
    buildDirEnv := []
    buildDirAbs := "/build".toList
    t := 0 }

/-- Cosmos SDK `sdk.AccAddress`: the bytes of an address. -/
abbrev AccAddress := List Nat

/-- Cosmos SDK `sdk.Coin`. -/
structure Coin where
  Denom : Str
  Amount : Int
deriving DecidableEq, Repr

/-- Cosmos SDK denomination rule: a lower-case letter followed by 2 to 15 lower-case
letters or digits. -/
def validDenom (d : Str) : Bool :=
  match d with
  | [] => false
  | c :: cs =>
    c.isLower && cs.all (fun x => x.isLower || x.isDigit) &&
      decide (2 ≤ cs.length) && decide (cs.length ≤ 15)

/-- Cosmos SDK `sdk.NewCoin`: it panics on an invalid denomination or a negative
amount. -/
def NewCoin (denom : Str) (amount : Int) : Option Coin :=
  if validDenom denom && decide (0 ≤ amount) then some { Denom := denom, Amount := amount }
  else none

/-- Cosmos SDK `sdk.DefaultBondDenom`. -/
def DefaultBondDenom : Str := "stake".toList

/-- Module names under which the application state is keyed: `auth.ModuleName`,
`guardian.ModuleName`, `asset.ModuleName`. -/
def authModuleName : Str := "auth".toList

/-- See `authModuleName`. -/
def guardianModuleName : Str := "guardian".toList

/-- See `authModuleName`. -/
def assetModuleName : Str := "asset".toList

/-- An account of the `auth` genesis state; `Rest` stands for the fields the code under
study does not touch. -/
structure Account where
  Address : AccAddress
  Rest : List Nat
deriving DecidableEq, Repr

/-- The method `GetAddress` of an account. -/
def Account.GetAddress (a : Account) : AccAddress := a.Address

/-- The genesis state of the `auth` module (`auth.GenesisState`). -/
structure AuthGenesis where
  Params : List Nat
  Accounts : List Account
deriving DecidableEq, Repr

/-- A guardian (`guardian.Guardian`); `Rest` stands for description and account type. -/
structure Guardian where
  Address : AccAddress
  AddedBy : AccAddress
  Rest : List Nat
deriving DecidableEq, Repr

/-- The genesis state of the `guardian` module (`guardian.GenesisState`). -/
structure GuardianGenesis where
  Profilers : List Guardian
  Trustees : List Guardian
deriving DecidableEq, Repr

/-- A fungible token (`token.FungibleToken`); `Rest` stands for the fields the literal in
`ModifyAssetParam` leaves at their zero value. -/
structure FungibleToken where
  Symbol : Str
  Name : Str
  Scale : Nat
  MinUnit : Str
  Mintable : Bool
  Rest : List Nat
deriving DecidableEq, Repr

/-- The parameters of the token sub-module; `Rest` stands for the parameters other than
`IssueTokenBaseFee`. -/
structure TokenParams where
  IssueTokenBaseFee : Coin
  Rest : List Nat
deriving DecidableEq, Repr

/-- The genesis state of the token sub-module. -/
structure TokenGenesis where
  Params : TokenParams
  Tokens : List FungibleToken
deriving DecidableEq, Repr

/-- The genesis state of the `asset` module (`asset.GenesisState`). -/
structure AssetGenesis where
  TokenState : TokenGenesis
  Rest : List Nat
deriving DecidableEq, Repr

/-- Tendermint `types.GenesisDoc`, with `Raw` the type of raw JSON messages. -/
structure GenesisDoc (Raw : Type) where
  GenesisTime : Nat
  ChainID : Str
  ConsensusParams : List Nat
  Validators : List (List Nat)
  AppHash : List Nat
  AppState : Raw

/-- A Go map with string keys, as an association list read at the first entry of a key. -/
def mapGet {V : Type} (m : List (Str × V)) (k : Str) : Option V :=
  (m.find? (fun e => decide (e.1 = k))).map Prod.snd

/-- Assignment `m[k] = v` to a Go map. -/
def mapSet {V : Type} (m : List (Str × V)) (k : Str) (v : V) : List (Str × V) :=
  (k, v) :: m.filter (fun e => decide (e.1 ≠ k))

/-- The Amino JSON codec (`codec.Codec`), one pair of functions per type that the code
under study marshals or unmarshals.  The application state `simapp.GenesisState` is a map
from module name to raw message.  Unmarshalling can fail (`MustUnmarshalJSON` then
panics). -/
structure Codec (Raw : Type) where
  UnmarshalAppState : Raw → Option (List (Str × Raw))
  MarshalAppState : List (Str × Raw) → Raw
  UnmarshalAuth : Raw → Option AuthGenesis
  UnmarshalGuardian : Raw → Option GuardianGenesis
  MarshalGuardian : GuardianGenesis → Raw
  UnmarshalAsset : Raw → Option AssetGenesis
  MarshalAsset : AssetGenesis → Raw

/-- Unmarshalling is a left inverse of marshalling. -/
def Codec.Lawful {Raw : Type} (cdc : Codec Raw) : Prop :=
  (∀ m, cdc.UnmarshalAppState (cdc.MarshalAppState m) = some m) ∧
  (∀ g, cdc.UnmarshalGuardian (cdc.MarshalGuardian g) = some g) ∧
  (∀ a, cdc.UnmarshalAsset (cdc.MarshalAsset a) = some a)

/-- `cdc.MustUnmarshalJSON(appState[name], &x)`: a missing entry is an empty message,
which does not unmarshal. -/
def mustUnmarshalEntry {Raw T : Type} (unmarshal : Raw → Option T) (appState : List (Str × Raw))
    (name : Str) : Option T :=
  match mapGet appState name with
  | none => none
  | some bz => unmarshal bz

/-- The two assignments of the loops of `AddGuardianAddr`. -/
def setGuardianAddr (guardianAddr : AccAddress) (g : Guardian) : Guardian :=
  { g with Address := guardianAddr, AddedBy := guardianAddr }

/-- The two loops of `AddGuardianAddr`, over the profilers and over the trustees. -/
def setGuardians (guardianAddr : AccAddress) (s : GuardianGenesis) : GuardianGenesis :=
  { Profilers := s.Profilers.map (setGuardianAddr guardianAddr)
    Trustees := s.Trustees.map (setGuardianAddr guardianAddr) }

/-- The function `AddGuardianAddr`; `none` stands for a panic. -/
def AddGuardianAddr {Raw : Type} (cdc : Codec Raw) (genDoc : GenesisDoc Raw) :
    Option (GenesisDoc Raw) :=
  match cdc.UnmarshalAppState genDoc.AppState with
  | none => none
  | some appState =>
    match mustUnmarshalEntry cdc.UnmarshalAuth appState authModuleName with
    | none => none
    | some authGenState =>
      match mustUnmarshalEntry cdc.UnmarshalGuardian appState guardianModuleName with
      | none => none
      | some guardianGenState =>
        match authGenState.Accounts with
        | [] => none
        | account :: _ =>
          let guardianAddr := account.GetAddress
          let guardianGenState1 := setGuardians guardianAddr guardianGenState
          let appState1 :=
            mapSet appState guardianModuleName (cdc.MarshalGuardian guardianGenState1)
          some { genDoc with AppState := cdc.MarshalAppState appState1 }

/-- The token literal `stakeToken` of `ModifyAssetParam`. -/
def stakeToken : FungibleToken :=
  { Symbol := DefaultBondDenom
    Name := "IRIS Network".toList
    Scale := 0
    MinUnit := DefaultBondDenom
    Mintable := true
    Rest := [] }

/-- The assignments of `ModifyAssetParam` to the asset genesis state: the base fee for
issuing a token is replaced and the token is appended to the token list. -/
def withStakeToken (fee : Coin) (a : AssetGenesis) : AssetGenesis :=
  { a with
    TokenState :=
      { Params := { a.TokenState.Params with IssueTokenBaseFee := fee }
        Tokens := a.TokenState.Tokens ++ [stakeToken] } }

/-- The function `ModifyAssetParam`; `none` stands for a panic. -/
def ModifyAssetParam {Raw : Type} (cdc : Codec Raw) (genDoc : GenesisDoc Raw) :
    Option (GenesisDoc Raw) :=
  match cdc.UnmarshalAppState genDoc.AppState with
  | none => none
  | some appState =>
    match mustUnmarshalEntry cdc.UnmarshalAsset appState assetModuleName with
    | none => none
    | some assetGenState =>
      match NewCoin stakeToken.MinUnit 30 with
      | none => none
      | some fee =>
        let assetGenState1 := withStakeToken fee assetGenState
        let appState1 := mapSet appState assetModuleName (cdc.MarshalAsset assetGenState1)
        some { genDoc with AppState := cdc.MarshalAppState appState1 }

/-- The type `PreProcess`: a function that modifies the genesis document in place and may
panic. -/
abbrev PreProcess (Raw : Type) := Codec Raw → GenesisDoc Raw → Option (GenesisDoc Raw)

/-- What `DoPreProcess` uses of its surroundings: the codec made by `app.MakeCodec`, the
decoding of a genesis file (`tmtypes.GenesisDocFromFile`) and the validation and encoding
of a genesis document (`genutil.ExportGenesisFile`); both can fail. -/
structure Host (Raw File : Type) where
  MakeCodec : Codec Raw
  decodeGenesis : File → Option (GenesisDoc Raw)
  encodeGenesis : GenesisDoc Raw → Option File

/-- An access to the file system. -/
inductive FileOp where
  | read (path : Str)
  | write (path : Str)
deriving DecidableEq, Repr

/-- The file system and the accesses made to it so far. -/
structure World (File : Type) where
  files : List (Str × File)
  log : List FileOp

/-- Tendermint `GenesisDocFromFile`: the file is read and decoded. -/
def GenesisDocFromFile {Raw File : Type} (host : Host Raw File) (w : World File) (path : Str) :
    Option (GenesisDoc Raw × World File) :=
  match mapGet w.files path with
  | none => none
  | some bz =>
    match host.decodeGenesis bz with
    | none => none
    | some genDoc => some (genDoc, { w with log := w.log ++ [FileOp.read path] })

/-- Cosmos SDK `genutil.ExportGenesisFile`: the document is validated, encoded and
written. -/
def ExportGenesisFile {Raw File : Type} (host : Host Raw File) (w : World File)
    (genDoc : GenesisDoc Raw) (path : Str) : Option (World File) :=
  match host.encodeGenesis genDoc with
  | none => none
  | some bz => some { files := mapSet w.files path bz, log := w.log ++ [FileOp.write path] }

/-- The loop of `DoPreProcess`: the preprocessors are applied in order to the document. -/
def applyPreProcess {Raw : Type} (cdc : Codec Raw) :
    List (PreProcess Raw) → GenesisDoc Raw → Option (GenesisDoc Raw)
  | [], genDoc => some genDoc
  | p :: ps, genDoc =>
    match p cdc genDoc with
    | none => none
    | some genDoc1 => applyPreProcess cdc ps genDoc1

/-- The method `Fixtures.DoPreProcess`; `none` stands for a failed `require.NoError` or a
panic.  The receiver is a pointer, so the fixtures after the call are returned with the
world. -/
def Fixtures.DoPreProcess {Raw File : Type} (host : Host Raw File) (f : Fixtures)
    (ps : List (PreProcess Raw)) (w : World File) : Option (Fixtures × World File) :=
  if ps.length = 0 then some (f, w)
  else
    match GenesisDocFromFile host w f.GenesisFile with
    | none => none
    | some (genDoc, w1) =>
      match applyPreProcess host.MakeCodec ps genDoc with
      | none => none
      | some genDoc1 =>
        match ExportGenesisFile host w1 genDoc1 f.GenesisFile with
        | none => none
        | some w2 => some (f, w2)

/-- Raw messages for worked examples: a message is the value it encodes. -/
inductive ToyRaw where
  | appState (m : List (Str × ToyRaw))
  | auth (a : AuthGenesis)
  | guardian (g : GuardianGenesis)
  | asset (a : AssetGenesis)
  | bytes (b : List Nat)

/-- The codec of the worked examples. -/
def toyCodec : Codec ToyRaw :=
  { UnmarshalAppState := fun r => match r with
      | .appState m => some m
      | _ => none
    MarshalAppState := ToyRaw.appState
    UnmarshalAuth := fun r => match r with
      | .auth a => some a
      | _ => none
    UnmarshalGuardian := fun r => match r with
      | .guardian g => some g
      | _ => none
    MarshalGuardian := ToyRaw.guardian
    UnmarshalAsset := fun r => match r with
      | .asset a => some a
      | _ => none
    MarshalAsset := ToyRaw.asset }

/-- The host of the worked examples: a genesis file is the document it holds. -/
def toyHost : Host ToyRaw (GenesisDoc ToyRaw) :=
  { MakeCodec := toyCodec, decodeGenesis := some, encodeGenesis := some }

/-- A genesis document for worked examples: two accounts, one profiler, two trustees, one
token and a `bank` entry. -/
def toyGenesis : GenesisDoc ToyRaw :=
  { GenesisTime := 1
    ChainID := "test-chain".toList
    ConsensusParams := [1]
    Validators := []
    AppHash := []
    AppState := ToyRaw.appState
      [(authModuleName, ToyRaw.auth
          { Params := [], Accounts := [{ Address := [1, 2], Rest := [] },
                                       { Address := [3, 4], Rest := [] }] }),
       (guardianModuleName, ToyRaw.guardian
          { Profilers := [{ Address := [9], AddedBy := [9], Rest := [0] }],
            Trustees := [{ Address := [8], AddedBy := [9], Rest := [1] },
                         { Address := [7], AddedBy := [7], Rest := [2] }] }),
       (assetModuleName, ToyRaw.asset
          { TokenState :=
              { Params := { IssueTokenBaseFee := { Denom := "iris".toList, Amount := 5 },
                            Rest := [6] },
                Tokens := [{ Symbol := "btc".toList, Name := "Bitcoin".toList, Scale := 8,
                             MinUnit := "satoshi".toList, Mintable := false, Rest := [] }] },
            Rest := [] }),
       ("bank".toList, ToyRaw.bytes [5])] }

/-- The world of the worked examples: the genesis file of the fixtures made from
`demoEnv` holds `toyGenesis`. -/
def toyWorld : World (GenesisDoc ToyRaw) :=
  { files := [((NewFixtures demoEnv).GenesisFile, toyGenesis)], log := [] }

end CliTest

/-!
# Flag names of the governance CLI (`client/gov/cli/flags.go`)
-/

namespace GovCli

/-- The flag-name constants of `client/gov/cli/flags.go`. -/
def flagProposalID : String := "proposal-id"
def flagTitle : String := "title"
def flagDescription : String := "description"
def flagProposalType : String := "type"
def flagDeposit : String := "deposit"
def flagVoter : String := "voter"
def flagOption : String := "option"
def flagDepositor : String := "depositor"
def flagStatus : String := "status"
def flagNumLimit : String := "limit"
def flagParam : String := "param"
def flagOp : String := "op"
def flagModule : String := "module"
def flagKey : String := "key"
def flagPath : String := "path"
def flagUsage : String := "usage"
def flagDestAddress : String := "dest-address"
def flagPercent : String := "percent"
def flagVersion : String := "version"
def flagSoftware : String := "software"
def flagSwitchHeight : String := "switch-height"
def flagThreshold : String := "threshold"
def flagTokenSymbol : String := "token-symbol"
def flagTokenSymbolAtSource : String := "token-symbol-at-source"
def flagTokenName : String := "token-name"
def flagTokenDecimal : String := "token-decimal"
def flagTokenSymbolMinAlias : String := "token-symbol-min-alias"
def flagTokenInitialSupply : String := "token-initial-supply"

/-- All flag-name constants of the file, in declaration order. -/
def allFlags : List String :=
  [flagProposalID, flagTitle, flagDescription, flagProposalType, flagDeposit, flagVoter,
   flagOption, flagDepositor, flagStatus, flagNumLimit, flagParam, flagOp, flagModule,
   flagKey, flagPath, flagUsage, flagDestAddress, flagPercent, flagVersion, flagSoftware,
   flagSwitchHeight, flagThreshold, flagTokenSymbol, flagTokenSymbolAtSource, flagTokenName,
   flagTokenDecimal, flagTokenSymbolMinAlias, flagTokenInitialSupply]

end GovCli

namespace RandModule

/-! ## Auxiliary lemmas -/

theorem foldl_bytes_bound (bs : Bytes) : ∀ acc : Nat,
    bs.foldl (fun acc b => acc * 256 + b % 256) acc + 1 ≤ (acc + 1) * 256 ^ bs.length := by
  induction bs with
  | nil => intro acc; simp
  | cons b bs ih =>
    intro acc
    have h1 := ih (acc * 256 + b % 256)
    have h2 : b % 256 < 256 := Nat.mod_lt _ (by norm_num)
    have h3 : acc * 256 + b % 256 + 1 ≤ (acc + 1) * 256 := by omega
    calc List.foldl (fun acc b => acc * 256 + b % 256) acc (b :: bs) + 1
        ≤ (acc * 256 + b % 256 + 1) * 256 ^ bs.length := h1
      _ ≤ ((acc + 1) * 256) * 256 ^ bs.length := Nat.mul_le_mul_right _ h3
      _ = (acc + 1) * 256 ^ (b :: bs).length := by
          simp [pow_succ]; ring

theorem bytesToNat_le_maxValue (bs : Bytes) (k : Nat) (h : bs.length ≤ k) :
    bytesToNat bs ≤ maxValue k := by
  have h1 := foldl_bytes_bound bs 0
  have h2 : 256 ^ bs.length ≤ 256 ^ k := Nat.pow_le_pow_right (by norm_num) h
  unfold bytesToNat maxValue
  simp at h1
  omega

theorem bytesToNat_lt_pow (bs : Bytes) (k : Nat) (h : bs.length ≤ k) :
    bytesToNat bs < 256 ^ k := by
  have h1 := bytesToNat_le_maxValue bs k h
  have h2 : 0 < 256 ^ k := by positivity
  unfold maxValue at h1
  omega

theorem MakePRNG_units_lt (P : Protocol) (prec : Nat) (seed : Bytes) :
    (MakePRNG P prec seed).units < 10 ^ prec := by
  unfold MakePRNG
  simp only
  have hn : bytesToNat ((P.mix seed).take P.width) < 256 ^ P.width :=
    bytesToNat_lt_pow _ _ (by simp)
  have hw : 0 < 256 ^ P.width := by positivity
  have hp : 0 < 10 ^ prec := by positivity
  rw [Nat.div_lt_iff_lt_mul hw, Nat.mul_comm (10 ^ prec) (256 ^ P.width)]
  exact Nat.mul_lt_mul_of_pos_right hn hp

theorem MakePRNG_units_floor (P : Protocol) (prec : Nat) (seed : Bytes) :
    (MakePRNG P prec seed).units * 256 ^ P.width ≤
      bytesToNat ((P.mix seed).take P.width) * 10 ^ prec ∧
    bytesToNat ((P.mix seed).take P.width) * 10 ^ prec <
      ((MakePRNG P prec seed).units + 1) * 256 ^ P.width := by
  unfold MakePRNG
  simp only
  have hw : 0 < 256 ^ P.width := by positivity
  constructor
  · exact Nat.div_mul_le_self _ _
  · have := Nat.lt_succ_self (bytesToNat ((P.mix seed).take P.width) * 10 ^ prec / 256 ^ P.width)
    rw [Nat.div_lt_iff_lt_mul hw] at this
    exact this

theorem Dec_toRat_lt_one (d : Dec) : d.toRat < 1 ↔ d.units < 10 ^ d.scale := by
  unfold Dec.toRat
  have hp : (0 : ℚ) < (10 : ℚ) ^ d.scale := by positivity
  rw [div_lt_one hp]
  exact_mod_cast Iff.rfl

theorem find_of_mem_nodup (l : List Request) (hn : (l.map Request.id).Nodup) (r : Request)
    (hr : r ∈ l) : l.find? (fun x => decide (x.id = r.id)) = some r := by
  induction l with
  | nil => simp at hr
  | cons a l ih =>
    simp only [List.map_cons, List.nodup_cons] at hn
    rcases List.mem_cons.mp hr with h | h
    · subst h; simp
    · have hne : a.id ≠ r.id := by
        intro he
        apply hn.1
        rw [he]
        exact List.mem_map_of_mem _ h
      rw [List.find?_cons_of_neg _ (by simpa using hne)]
      exact ih hn.2 h

theorem get_of_mem (k : Keeper) (hk : k.WF) (r : Request) (hr : r ∈ k.requests) :
    k.get r.id = some r :=
  find_of_mem_nodup k.requests hk.1 r hr

theorem get_some_mem (k : Keeper) (id : Bytes) (r : Request) (h : k.get id = some r) :
    r ∈ k.requests ∧ r.id = id := by
  unfold Keeper.get at h
  have h1 := List.mem_of_find?_eq_some h
  have h2 := List.find?_some h
  exact ⟨h1, by simpa using h2⟩

theorem get_none_iff (k : Keeper) (id : Bytes) :
    k.get id = none ↔ ∀ r ∈ k.requests, r.id ≠ id := by
  unfold Keeper.get
  simp [List.find?_eq_none]

theorem due_eq_filter (k : Keeper) (hk : k.WF) (h : Nat) :
    k.due h = k.requests.filter (fun r => decide (r.targetHeight = h)) := by
  unfold Keeper.due Keeper.bucket
  rw [hk.2.1, List.filter_map, List.map_map, List.filterMap_map]
  have hc : ∀ r ∈ k.requests.filter (fun r => decide (r.targetHeight = h)),
      (k.get ∘ (Prod.snd ∘ fun r : Request => (r.targetHeight, r.id))) r = some r := by
    intro r hr
    exact get_of_mem k hk r (List.mem_of_mem_filter hr)
  have : ∀ (l : List Request), (∀ r ∈ l,
      (k.get ∘ (Prod.snd ∘ fun r : Request => (r.targetHeight, r.id))) r = some r) →
      l.filterMap (k.get ∘ (Prod.snd ∘ fun r : Request => (r.targetHeight, r.id))) = l := by
    intro l
    induction l with
    | nil => intro _; rfl
    | cons a l ih =>
      intro hl
      rw [List.filterMap_cons, hl a (List.mem_cons_self _ _)]
      simp only
      rw [ih (fun r hr => hl r (List.mem_cons_of_mem _ hr))]
  exact this _ hc

theorem WF_empty : Keeper.empty.WF := by
  unfold Keeper.WF Keeper.empty; simp

theorem insert_ok (k : Keeper) (r : Request) (h : k.get r.id = none) :
    k.insert r = .ok { k with requests := k.requests ++ [r],
                              queue := k.queue ++ [(r.targetHeight, r.id)] } := by
  unfold Keeper.insert; rw [h]

theorem insert_dup (k : Keeper) (r r0 : Request) (h : k.get r.id = some r0) :
    k.insert r = .error .duplicateRequest := by
  unfold Keeper.insert; rw [h]

theorem WF_insert (k k1 : Keeper) (r : Request) (hk : k.WF)
    (hc : r.oracleFlag = true → r.oracleContextID ≠ none)
    (h : k.insert r = .ok k1) : k1.WF := by
  unfold Keeper.insert at h
  cases hg : k.get r.id with
  | some r0 => rw [hg] at h; cases h
  | none =>
    rw [hg] at h
    injection h with h
    subst h
    obtain ⟨h1, h2, h3⟩ := hk
    refine ⟨?_, ?_, ?_⟩
    · simp only [List.map_append, List.map_cons, List.map_nil]
      rw [List.nodup_append]
      refine ⟨h1, by simp, ?_⟩
      intro a ha hb
      simp only [List.mem_singleton] at hb
      subst hb
      obtain ⟨x, hx, hxe⟩ := List.mem_map.mp ha
      exact (get_none_iff k r.id).mp hg x hx hxe
    · simp only [h2, List.map_append, List.map_cons, List.map_nil]
    · intro x hx
      simp only [List.mem_append, List.mem_singleton] at hx
      rcases hx with hx | hx
      · exact h3 x hx
      · subst hx; exact hc

theorem remove_ok (k : Keeper) (id : Bytes) (r : Request) (h : k.get id = some r) :
    k.remove id = .ok { k with requests := k.requests.filter (fun r => decide (r.id ≠ id)),
                               queue := k.queue.filter (fun e => decide (e.2 ≠ id)) } := by
  unfold Keeper.remove; rw [h]

theorem WF_filter (k : Keeper) (hk : k.WF) (p : Bytes → Bool) :
    Keeper.WF { k with requests := k.requests.filter (fun r => p r.id),
                       queue := k.queue.filter (fun e => p e.2) } := by
  obtain ⟨h1, h2, h3⟩ := hk
  refine ⟨?_, ?_, ?_⟩
  · exact List.Nodup.sublist (List.Sublist.map _ (List.filter_sublist _)) h1
  · simp only [h2, List.filter_map]
    rfl
  · intro x hx
    exact h3 x (List.mem_of_mem_filter hx)

theorem processDue_ok (P : Protocol) (cfg : Config) (H : Bytes) (h : Nat) (k : Keeper)
    (hk : k.WF) (r : Request) (hr : r ∈ k.requests) :
    ∃ k1, processDue P cfg H h k r = .ok k1 ∧
      k1.requests = k.requests.filter (fun x => decide (x.id ≠ r.id)) ∧
      k1.queue = k.queue.filter (fun e => decide (e.2 ≠ r.id)) ∧
      k1.waiting = k.waiting ++ (if r.oracleFlag then [parked H h r] else []) ∧
      k1.results = k.results ++ (if r.oracleFlag then [] else [nativeRand P cfg H h r]) := by
  have hg := get_of_mem k hk r hr
  unfold processDue
  rw [remove_ok k r.id r hg]
  simp only
  cases hf : r.oracleFlag with
  | true =>
    have hc := hk.2.2 r hr hf
    cases hctx : r.oracleContextID with
    | none => exact absurd hctx hc
    | some c => simp
  | false => simp

theorem WF_of_requests_queue (k k1 : Keeper) (hk : k.WF) (p : Bytes → Bool)
    (h1 : k1.requests = k.requests.filter (fun r => p r.id))
    (h2 : k1.queue = k.queue.filter (fun e => p e.2)) : k1.WF := by
  have h := WF_filter k hk p
  unfold Keeper.WF at h ⊢
  simp only at h
  rw [h1, h2]
  exact h

theorem processAll_ok (P : Protocol) (cfg : Config) (H : Bytes) (h : Nat) (l : List Request) :
    ∀ k : Keeper, k.WF → (l.map Request.id).Nodup → (∀ r ∈ l, r ∈ k.requests) →
    ∃ k1, processAll P cfg H h k l = .ok k1 ∧
      k1.requests = k.requests.filter (fun x => decide (x.id ∉ l.map Request.id)) ∧
      k1.queue = k.queue.filter (fun e => decide (e.2 ∉ l.map Request.id)) ∧
      k1.waiting = k.waiting ++ (l.filter (fun r => r.oracleFlag)).map (parked H h) ∧
      k1.results = k.results ++
        (l.filter (fun r => !r.oracleFlag)).map (nativeRand P cfg H h) := by
  induction l with
  | nil =>
    intro k _ _ _
    exact ⟨k, rfl, by simp, by simp, by simp, by simp⟩
  | cons r l ih =>
    intro k hk hn hm
    obtain ⟨k1, e1, q1, q2, q3, q4⟩ :=
      processDue_ok P cfg H h k hk r (hm r (List.mem_cons_self _ _))
    simp only [List.map_cons, List.nodup_cons] at hn
    have hk1 : k1.WF := WF_of_requests_queue k k1 hk (fun i => decide (i ≠ r.id)) q1 q2
    have hm1 : ∀ x ∈ l, x ∈ k1.requests := by
      intro x hx
      rw [q1, List.mem_filter]
      refine ⟨hm x (List.mem_cons_of_mem _ hx), ?_⟩
      have : x.id ≠ r.id := by
        intro he
        apply hn.1
        rw [← he]
        exact List.mem_map_of_mem _ hx
      simpa using this
    obtain ⟨k2, e2, p1, p2, p3, p4⟩ := ih k1 hk1 hn.2 hm1
    refine ⟨k2, ?_, ?_, ?_, ?_, ?_⟩
    · simp only [processAll, e1, e2]
    · rw [p1, q1, List.filter_filter]
      apply List.filter_congr
      intro x _
      simp only [List.map_cons, List.mem_cons, not_or, Bool.decide_and]
      rw [Bool.and_comm]
    · rw [p2, q2, List.filter_filter]
      apply List.filter_congr
      intro x _
      simp only [List.map_cons, List.mem_cons, not_or, Bool.decide_and]
      rw [Bool.and_comm]
    · rw [p3, q3]
      cases hf : r.oracleFlag <;> simp [List.filter_cons, hf]
    · rw [p4, q4]
      cases hf : r.oracleFlag <;> simp [List.filter_cons, hf]

theorem id_inj (k : Keeper) (hk : k.WF) (x y : Request) (hx : x ∈ k.requests)
    (hy : y ∈ k.requests) (h : x.id = y.id) : x = y :=
  List.inj_on_of_nodup_map hk.1 hx hy h

theorem maturity_ok (P : Protocol) (cfg : Config) (H : Bytes) (h : Nat) (k : Keeper)
    (hk : k.WF) :
    ∃ k1, maturity P cfg H h k = .ok k1 ∧ k1.WF ∧
      k1.requests = k.requests.filter (fun x => decide (x.targetHeight ≠ h)) ∧
      k1.waiting = k.waiting ++
        ((k.requests.filter (fun r => decide (r.targetHeight = h))).filter
          (fun r => r.oracleFlag)).map (parked H h) ∧
      k1.results = k.results ++
        ((k.requests.filter (fun r => decide (r.targetHeight = h))).filter
          (fun r => !r.oracleFlag)).map (nativeRand P cfg H h) := by
  have hn : ((k.requests.filter (fun r => decide (r.targetHeight = h))).map Request.id).Nodup :=
    List.Nodup.sublist (List.Sublist.map _ (List.filter_sublist _)) hk.1
  obtain ⟨k1, e1, q1, q2, q3, q4⟩ := processAll_ok P cfg H h
    (k.requests.filter (fun r => decide (r.targetHeight = h))) k hk hn
    (fun r hr => List.mem_of_mem_filter hr)
  refine ⟨k1, ?_, ?_, ?_, q3, q4⟩
  · unfold maturity
    rw [due_eq_filter k hk h]
    exact e1
  · exact WF_of_requests_queue k k1 hk
      (fun i => decide (i ∉ (k.requests.filter
        (fun r => decide (r.targetHeight = h))).map Request.id)) q1 q2
  · rw [q1]
    apply List.filter_congr
    intro x hx
    have : x.id ∈ (k.requests.filter (fun r => decide (r.targetHeight = h))).map Request.id ↔
        x.targetHeight = h := by
      constructor
      · intro hm
        obtain ⟨y, hy, hye⟩ := List.mem_map.mp hm
        have hy1 := List.mem_of_mem_filter hy
        have hy2 : y.targetHeight = h := by simpa using (List.mem_filter.mp hy).2
        have := id_inj k hk y x hy1 hx hye
        rw [← this]; exact hy2
      · intro ht
        exact List.mem_map_of_mem _ (List.mem_filter.mpr ⟨hx, by simpa using ht⟩)
    simp only [this]

theorem filter_id_singleton (l : List Request) (hn : (l.map Request.id).Nodup) (r : Request)
    (hr : r ∈ l) : l.filter (fun x => decide (x.id = r.id)) = [r] := by
  induction l with
  | nil => simp at hr
  | cons a l ih =>
    simp only [List.map_cons, List.nodup_cons] at hn
    rcases List.mem_cons.mp hr with h | h
    · subst h
      rw [List.filter_cons_of_pos (by simp)]
      congr 1
      apply List.filter_eq_nil_iff.mpr
      intro x hx hxe
      apply hn.1
      rw [← of_decide_eq_true hxe]
      exact List.mem_map_of_mem _ hx
    · have hne : a.id ≠ r.id := by
        intro he
        apply hn.1
        rw [he]
        exact List.mem_map_of_mem _ h
      rw [List.filter_cons_of_neg (by simpa using hne)]
      exact ih hn.2 h

theorem resultsFor_append_native (P : Protocol) (cfg : Config) (H : Bytes) (h : Nat)
    (k k1 : Keeper) (l : List Request) (id : Bytes)
    (hres : k1.results = k.results ++ l.map (nativeRand P cfg H h)) :
    k1.resultsFor id = k.resultsFor id ++
      (l.filter (fun x => decide (x.id = id))).map (nativeRand P cfg H h) := by
  unfold Keeper.resultsFor
  rw [hres, List.filter_append, List.filter_map]
  rfl

theorem mem_bucket (k : Keeper) (hk : k.WF) (h : Nat) (i : Bytes) :
    i ∈ k.bucket h ↔ ∃ x ∈ k.requests, x.targetHeight = h ∧ x.id = i := by
  unfold Keeper.bucket
  rw [hk.2.1]
  simp only [List.mem_map, List.mem_filter, decide_eq_true_eq, Prod.exists]
  constructor
  · rintro ⟨a, b, ⟨⟨x, hx, hxe⟩, ha⟩, hb⟩
    simp only [Prod.mk.injEq] at hxe
    refine ⟨x, hx, ?_, ?_⟩
    · rw [hxe.1]; exact ha
    · rw [hxe.2]; exact hb
  · rintro ⟨x, hx, h1, h2⟩
    exact ⟨h, i, ⟨⟨x, hx, by rw [h1, h2]⟩, rfl⟩, rfl⟩

theorem maturity_resultsFor_unchanged (P : Protocol) (cfg : Config) (H : Bytes) (h : Nat)
    (k : Keeper) (hk : k.WF) (id : Bytes)
    (hno : ∀ x ∈ k.requests, x.id = id → x.targetHeight ≠ h ∨ x.oracleFlag = true) :
    ∃ k2, maturity P cfg H h k = .ok k2 ∧ k2.resultsFor id = k.resultsFor id := by
  obtain ⟨k2, e, _, _, _, q4⟩ := maturity_ok P cfg H h k hk
  refine ⟨k2, e, ?_⟩
  rw [resultsFor_append_native P cfg H h k k2 _ id q4]
  have : ((k.requests.filter (fun r => decide (r.targetHeight = h))).filter
      (fun r => !r.oracleFlag)).filter (fun x => decide (x.id = id)) = [] := by
    apply List.filter_eq_nil_iff.mpr
    intro x hx hxe
    obtain ⟨hx1, hx2⟩ := List.mem_filter.mp hx
    obtain ⟨hx3, hx4⟩ := List.mem_filter.mp hx1
    rcases hno x hx3 (of_decide_eq_true hxe) with h1 | h1
    · exact h1 (of_decide_eq_true hx4)
    · simp [h1] at hx2
  rw [this]
  simp

theorem admission_ok_shape (P : Protocol) (cfg : Config) (ctx : TxCtx) (m : MsgRequestRand)
    (k k1 : Keeper) (h : admission P cfg ctx m k = .ok k1) :
    m.blockInterval ≠ 0 ∧ (cfg.minDelay ≤ m.blockInterval ∧ m.blockInterval ≤ cfg.maxDelay) ∧
    k.get (GenerateRequestID P ctx m.consumer) = none ∧
    k1 = { k with
      requests := k.requests ++ [NewRequest (GenerateRequestID P ctx m.consumer) m.consumer
        ctx.height (ctx.height + m.blockInterval) m.oracle
        (if m.oracle then some (P.contextID (GenerateRequestID P ctx m.consumer)) else none)],
      queue := k.queue ++ [(ctx.height + m.blockInterval, GenerateRequestID P ctx m.consumer)],
      events := k.events ++ [Event.admitted (GenerateRequestID P ctx m.consumer) m.consumer
        (ctx.height + m.blockInterval)] } := by
  unfold admission at h
  by_cases h0 : m.blockInterval = 0
  · simp [h0] at h
  by_cases hmin : m.blockInterval < cfg.minDelay
  · simp [h0, hmin] at h
  by_cases h1 : cfg.maxDelay < m.blockInterval
  · simp [h0, hmin, h1] at h
  simp only [h0, hmin, h1, if_false] at h
  cases hg : k.get (GenerateRequestID P ctx m.consumer) with
  | some r0 =>
    rw [insert_dup k _ r0 (by simpa [NewRequest] using hg)] at h
    simp at h
  | none =>
    rw [insert_ok k _ (by simpa [NewRequest] using hg)] at h
    simp only [NewRequest, Except.ok.injEq] at h
    refine ⟨h0, ⟨by omega, by omega⟩, rfl, ?_⟩
    rw [← h]
    rfl

theorem admission_rejects (P : Protocol) (cfg : Config) (ctx : TxCtx) (m : MsgRequestRand)
    (k : Keeper)
    (hv : m.blockInterval = 0 ∨ m.blockInterval < cfg.minDelay ∨
      cfg.maxDelay < m.blockInterval) :
    admission P cfg ctx m k = .error .validation := by
  unfold admission
  by_cases h0 : m.blockInterval = 0
  · simp [h0]
  by_cases hmin : m.blockInterval < cfg.minDelay
  · simp [h0, hmin]
  by_cases h1 : cfg.maxDelay < m.blockInterval
  · simp [h0, hmin, h1]
  · rcases hv with hv | hv | hv
    · exact absurd hv h0
    · exact absurd hv hmin
    · exact absurd hv h1

theorem WF_congr (k k1 : Keeper) (hk : k.WF) (h1 : k1.requests = k.requests)
    (h2 : k1.queue = k.queue) : k1.WF := by
  unfold Keeper.WF at hk ⊢
  rw [h1, h2]
  exact hk

theorem endBlock_ok (P : Protocol) (cfg : Config) (H : Bytes) (h : Nat) (k : Keeper)
    (hk : k.WF) :
    ∃ k1, endBlock P cfg H h k = .ok k1 ∧ k1.WF ∧
      k1.requests = k.requests.filter (fun x => decide (x.targetHeight ≠ h)) ∧
      k1.waiting = (k.waiting ++
        ((k.requests.filter (fun r => decide (r.targetHeight = h))).filter
          (fun r => r.oracleFlag)).map (parked H h)).filter (fun w => !(w.expired cfg h)) ∧
      k1.results = k.results ++
        ((k.requests.filter (fun r => decide (r.targetHeight = h))).filter
          (fun r => !r.oracleFlag)).map (nativeRand P cfg H h) ∧
      (∀ w ∈ k.waiting, w.expired cfg h = true →
        Event.failed w.req.id w.req.consumer ∈ k1.events) := by
  obtain ⟨k1, e, hk1, q1, q3, q4⟩ := maturity_ok P cfg H h k hk
  refine ⟨bridgeSweep cfg h k1, ?_, ?_, ?_, ?_, ?_, ?_⟩
  · unfold endBlock; rw [e]
  · exact WF_congr k1 _ hk1 rfl rfl
  · exact q1
  · simp only [bridgeSweep, q3]
  · exact q4
  · intro w hw he
    simp only [bridgeSweep, q3, List.mem_append, List.mem_map, List.mem_filter]
    right
    exact ⟨w, ⟨Or.inl hw, he⟩, rfl⟩

theorem oracleCallback_ok (P : Protocol) (cfg : Config) (h : Nat) (c e : Bytes)
    (k k1 : Keeper) (hok : oracleCallback P cfg h c e k = .ok k1) :
    ∃ w ∈ k.waiting, w.req.oracleContextID = some c ∧
      k1.requests = k.requests ∧ k1.queue = k.queue ∧
      k1.waiting = k.waiting.filter (fun x => decide (x.req.oracleContextID ≠ some c)) ∧
      k1.results = k.results ++
        [NewRand w.req.id h (MakePRNG P cfg.randPrec (w.seed ++ e)) (w.seed ++ e)] := by
  unfold oracleCallback at hok
  cases hf : k.waiting.find? (fun w => decide (w.req.oracleContextID = some c)) with
  | none => rw [hf] at hok; simp at hok
  | some w =>
    rw [hf] at hok
    simp only [Except.ok.injEq] at hok
    refine ⟨w, List.mem_of_find?_eq_some hf, by simpa using List.find?_some hf, ?_⟩
    rw [← hok]
    exact ⟨rfl, rfl, rfl, rfl⟩

theorem oracleCallback_notFound (P : Protocol) (cfg : Config) (h : Nat) (c e : Bytes)
    (k : Keeper) (hno : ∀ w ∈ k.waiting, w.req.oracleContextID ≠ some c) :
    oracleCallback P cfg h c e k = .error .notFound := by
  unfold oracleCallback
  have : k.waiting.find? (fun w => decide (w.req.oracleContextID = some c)) = none := by
    apply List.find?_eq_none.mpr
    intro w hw
    simpa using hno w hw
  rw [this]

theorem submitRequest_ok_shape (P : Protocol) (cfg : Config) (ctx : TxCtx)
    (m : MsgRequestRand) (k k1 : Keeper) (h : submitRequest P cfg ctx m k = .ok k1) :
    admission P cfg ctx m k = .ok k1 := by
  unfold submitRequest at h
  by_cases hv : P.validConsumer m.consumer = true
  · simpa [hv] using h
  · simp [hv] at h

theorem WF_admission (P : Protocol) (cfg : Config) (ctx : TxCtx) (m : MsgRequestRand)
    (k k1 : Keeper) (hk : k.WF) (h : admission P cfg ctx m k = .ok k1) : k1.WF := by
  obtain ⟨_, _, hg, hk1⟩ := admission_ok_shape P cfg ctx m k k1 h
  have hins := insert_ok k (NewRequest (GenerateRequestID P ctx m.consumer) m.consumer
      ctx.height (ctx.height + m.blockInterval) m.oracle
      (if m.oracle then some (P.contextID (GenerateRequestID P ctx m.consumer)) else none)) hg
  have hwf0 := WF_insert k _ _ hk (by
    intro hf
    simp only [NewRequest] at hf ⊢
    simp [hf]) hins
  rw [hk1]
  exact hwf0

theorem step_WF (P : Protocol) (cfg : Config) (s : Sys) (i : Input) (hk : s.keeper.WF) :
    (step P cfg s i).keeper.WF := by
  cases i with
  | submit tx m =>
    simp only [step]
    cases hs : submitRequest P cfg ⟨tx, s.height + 1, s.seq⟩ m s.keeper with
    | error e => exact hk
    | ok k1 => exact WF_admission P cfg _ m s.keeper k1 hk (submitRequest_ok_shape P cfg _ m _ _ hs)
  | callback c e =>
    simp only [step]
    cases hs : oracleCallback P cfg (s.height + 1) c e s.keeper with
    | error e => exact hk
    | ok k1 =>
      obtain ⟨w, _, _, h1, h2, _⟩ := oracleCallback_ok P cfg _ c e s.keeper k1 hs
      exact WF_congr s.keeper k1 hk h1 h2
  | endBlock H =>
    obtain ⟨k1, e, hk1, _⟩ := endBlock_ok P cfg H (s.height + 1) s.keeper hk
    simp only [step, e]
    exact hk1

theorem step_pending_future (P : Protocol) (cfg : Config) (s : Sys) (i : Input)
    (hk : s.keeper.WF) (hf : ∀ r ∈ s.keeper.requests, s.height < r.targetHeight) :
    (∀ r ∈ (step P cfg s i).keeper.requests, (step P cfg s i).height < r.targetHeight) ∧
    (step P cfg s i).height = s.height + countBlocks [i] := by
  cases i with
  | submit tx m =>
    simp only [step, countBlocks]
    cases hs : submitRequest P cfg ⟨tx, s.height + 1, s.seq⟩ m s.keeper with
    | error e => exact ⟨hf, rfl⟩
    | ok k1 =>
      obtain ⟨h0, _, _, hk1⟩ := admission_ok_shape P cfg _ m s.keeper k1
        (submitRequest_ok_shape P cfg _ m _ _ hs)
      refine ⟨?_, rfl⟩
      intro r hr
      rw [hk1] at hr
      simp only [List.mem_append, List.mem_singleton] at hr
      rcases hr with hr | hr
      · exact hf r hr
      · rw [hr]; simp only [NewRequest]; omega
  | callback c e =>
    simp only [step, countBlocks]
    cases hs : oracleCallback P cfg (s.height + 1) c e s.keeper with
    | error e => exact ⟨hf, rfl⟩
    | ok k1 =>
      obtain ⟨w, _, _, h1, _, _⟩ := oracleCallback_ok P cfg _ c e s.keeper k1 hs
      refine ⟨?_, rfl⟩
      intro r hr
      rw [h1] at hr
      exact hf r hr
  | endBlock H =>
    obtain ⟨k1, e, _, q1, _⟩ := endBlock_ok P cfg H (s.height + 1) s.keeper hk
    simp only [step, e, countBlocks]
    refine ⟨?_, by trivial⟩
    intro r hr
    rw [q1] at hr
    obtain ⟨hr1, hr2⟩ := List.mem_filter.mp hr
    have := hf r hr1
    simp only [ne_eq, decide_not, Bool.not_eq_true', decide_eq_false_iff_not] at hr2
    omega

theorem run_invariant (P : Protocol) (cfg : Config) (inputs : List Input) :
    ∀ s : Sys, s.keeper.WF → (∀ r ∈ s.keeper.requests, s.height < r.targetHeight) →
      (run P cfg s inputs).keeper.WF ∧
      (∀ r ∈ (run P cfg s inputs).keeper.requests,
        (run P cfg s inputs).height < r.targetHeight) ∧
      (run P cfg s inputs).height = s.height + countBlocks inputs := by
  induction inputs with
  | nil => intro s hk hf; exact ⟨hk, hf, rfl⟩
  | cons i is ih =>
    intro s hk hf
    obtain ⟨h1, h2⟩ := step_pending_future P cfg s i hk hf
    obtain ⟨g1, g2, g3⟩ := ih (step P cfg s i) (step_WF P cfg s i hk) h1
    have hr : run P cfg s (i :: is) = run P cfg (step P cfg s i) is := rfl
    rw [hr]
    refine ⟨g1, g2, ?_⟩
    rw [g3, h2]
    cases i <;> simp [countBlocks]
    omega

theorem resultsFor_of_results_eq (k k1 : Keeper) (id : Bytes) (h : k1.results = k.results) :
    k1.resultsFor id = k.resultsFor id := by
  unfold Keeper.resultsFor; rw [h]

theorem endBlock_gone (P : Protocol) (cfg : Config) (H : Bytes) (h : Nat) (k k1 : Keeper)
    (id c : Bytes)
    (hreq : ∀ r ∈ k.requests, r.id ≠ id ∧ r.oracleContextID ≠ some c)
    (hwait : ∀ x ∈ k.waiting, x.expired cfg h = false →
      x.req.id ≠ id ∧ x.req.oracleContextID ≠ some c)
    (q1 : k1.requests = k.requests.filter (fun x => decide (x.targetHeight ≠ h)))
    (q3 : k1.waiting = (k.waiting ++
        ((k.requests.filter (fun r => decide (r.targetHeight = h))).filter
          (fun r => r.oracleFlag)).map (parked H h)).filter (fun w => !(w.expired cfg h)))
    (q4 : k1.results = k.results ++
        ((k.requests.filter (fun r => decide (r.targetHeight = h))).filter
          (fun r => !r.oracleFlag)).map (nativeRand P cfg H h)) :
    k1.Gone id c ∧ k1.resultsFor id = k.resultsFor id := by
  refine ⟨⟨?_, ?_⟩, ?_⟩
  · intro r hr
    rw [q1] at hr
    exact hreq r (List.mem_of_mem_filter hr)
  · intro x hx
    rw [q3] at hx
    obtain ⟨hx1, hx2⟩ := List.mem_filter.mp hx
    rcases List.mem_append.mp hx1 with hx1 | hx1
    · exact hwait x hx1 (by simpa using hx2)
    · obtain ⟨r, hr, hre⟩ := List.mem_map.mp hx1
      have hr1 := List.mem_of_mem_filter (List.mem_of_mem_filter hr)
      rw [← hre]
      exact hreq r hr1
  · rw [resultsFor_append_native P cfg H h k k1 _ id q4]
    have : ((k.requests.filter (fun r => decide (r.targetHeight = h))).filter
        (fun r => !r.oracleFlag)).filter (fun x => decide (x.id = id)) = [] := by
      apply List.filter_eq_nil_iff.mpr
      intro x hx hxe
      have hx1 := List.mem_of_mem_filter (List.mem_of_mem_filter hx)
      exact (hreq x hx1).1 (of_decide_eq_true hxe)
    rw [this]
    simp

theorem step_gone (P : Protocol) (cfg : Config) (id c : Bytes) (s : Sys) (i : Input)
    (hk : s.keeper.WF) (hg : s.keeper.Gone id c) (hn : noReuse P cfg id c s [i] = true) :
    (step P cfg s i).keeper.Gone id c ∧
    (step P cfg s i).keeper.resultsFor id = s.keeper.resultsFor id := by
  cases i with
  | submit tx m =>
    simp only [noReuse, Bool.and_true, Bool.and_eq_true, decide_eq_true_eq] at hn
    simp only [step]
    cases hs : submitRequest P cfg ⟨tx, s.height + 1, s.seq⟩ m s.keeper with
    | error e => exact ⟨hg, rfl⟩
    | ok k1 =>
      obtain ⟨_, _, _, hk1⟩ := admission_ok_shape P cfg _ m s.keeper k1
        (submitRequest_ok_shape P cfg _ m _ _ hs)
      refine ⟨⟨?_, ?_⟩, ?_⟩
      · intro r hr
        rw [hk1] at hr
        simp only [List.mem_append, List.mem_singleton] at hr
        rcases hr with hr | hr
        · exact hg.1 r hr
        · rw [hr]
          simp only [NewRequest]
          refine ⟨hn.1, ?_⟩
          cases m.oracle with
          | false => simp
          | true =>
            simp only [if_true, ne_eq, Option.some.injEq]
            exact hn.2
      · intro w hw
        rw [hk1] at hw
        exact hg.2 w hw
      · rw [hk1]; rfl
  | callback c1 e =>
    simp only [step]
    cases hs : oracleCallback P cfg (s.height + 1) c1 e s.keeper with
    | error e => exact ⟨hg, rfl⟩
    | ok k1 =>
      obtain ⟨w, hw, _, h1, _, h3, h4⟩ := oracleCallback_ok P cfg _ c1 e s.keeper k1 hs
      refine ⟨⟨?_, ?_⟩, ?_⟩
      · intro r hr
        rw [h1] at hr
        exact hg.1 r hr
      · intro x hx
        rw [h3] at hx
        exact hg.2 x (List.mem_of_mem_filter hx)
      · unfold Keeper.resultsFor
        rw [h4, List.filter_append]
        have : [NewRand w.req.id (s.height + 1) (MakePRNG P cfg.randPrec (w.seed ++ e))
            (w.seed ++ e)].filter (fun x => decide (x.requestID = id)) = [] := by
          apply List.filter_eq_nil_iff.mpr
          intro x hx hxe
          rw [List.mem_singleton.mp hx] at hxe
          exact (hg.2 w hw).1 (of_decide_eq_true hxe)
        rw [this]
        simp
  | endBlock H =>
    obtain ⟨k1, e, _, q1, q3, q4, _⟩ := endBlock_ok P cfg H (s.height + 1) s.keeper hk
    simp only [step, e]
    exact endBlock_gone P cfg H (s.height + 1) s.keeper k1 id c hg.1
      (fun x hx _ => hg.2 x hx) q1 q3 q4

theorem run_gone (P : Protocol) (cfg : Config) (id c : Bytes) (inputs : List Input) :
    ∀ s : Sys, s.keeper.WF → s.keeper.Gone id c → noReuse P cfg id c s inputs = true →
      (run P cfg s inputs).keeper.Gone id c ∧
      (run P cfg s inputs).keeper.resultsFor id = s.keeper.resultsFor id := by
  induction inputs with
  | nil => intro s _ hg _; exact ⟨hg, rfl⟩
  | cons i is ih =>
    intro s hk hg hn
    have hn1 : noReuse P cfg id c s [i] = true := by
      simp only [noReuse, Bool.and_true, Bool.and_eq_true] at hn ⊢
      exact hn.1
    have hn2 : noReuse P cfg id c (step P cfg s i) is = true := by
      simp only [noReuse, Bool.and_eq_true] at hn
      exact hn.2
    obtain ⟨h1, h2⟩ := step_gone P cfg id c s i hk hg hn1
    obtain ⟨g1, g2⟩ := ih (step P cfg s i) (step_WF P cfg s i hk) h1 hn2
    have hr : run P cfg s (i :: is) = run P cfg (step P cfg s i) is := rfl
    rw [hr]
    exact ⟨g1, by rw [g2, h2]⟩

theorem step_since (P : Protocol) (cfg : Config) (s : Sys) (i : Input) (hk : s.keeper.WF)
    (hs : ∀ w ∈ s.keeper.waiting, w.req.oracleFlag = true ∧ w.since = w.req.submitHeight) :
    ∀ w ∈ (step P cfg s i).keeper.waiting,
      w.req.oracleFlag = true ∧ w.since = w.req.submitHeight := by
  cases i with
  | submit tx m =>
    simp only [step]
    cases hsub : submitRequest P cfg ⟨tx, s.height + 1, s.seq⟩ m s.keeper with
    | error e => exact hs
    | ok k1 =>
      obtain ⟨_, _, _, hk1⟩ := admission_ok_shape P cfg _ m s.keeper k1
        (submitRequest_ok_shape P cfg _ m _ _ hsub)
      intro w hw
      rw [hk1] at hw
      exact hs w hw
  | callback c e =>
    simp only [step]
    cases hcb : oracleCallback P cfg (s.height + 1) c e s.keeper with
    | error e => exact hs
    | ok k1 =>
      obtain ⟨w0, _, _, _, _, h3, _⟩ := oracleCallback_ok P cfg _ c e s.keeper k1 hcb
      intro w hw
      rw [h3] at hw
      exact hs w (List.mem_of_mem_filter hw)
  | endBlock H =>
    obtain ⟨k1, e, _, _, q3, _, _⟩ := endBlock_ok P cfg H (s.height + 1) s.keeper hk
    simp only [step, e]
    intro w hw
    rw [q3] at hw
    rcases List.mem_append.mp (List.mem_of_mem_filter hw) with h | h
    · exact hs w h
    · obtain ⟨r, hr, rfl⟩ := List.mem_map.mp h
      exact ⟨(List.mem_filter.mp hr).2, rfl⟩

theorem run_since (P : Protocol) (cfg : Config) (inputs : List Input) :
    ∀ s : Sys, s.keeper.WF →
      (∀ w ∈ s.keeper.waiting, w.req.oracleFlag = true ∧ w.since = w.req.submitHeight) →
      (run P cfg s inputs).keeper.WF ∧
      ∀ w ∈ (run P cfg s inputs).keeper.waiting,
        w.req.oracleFlag = true ∧ w.since = w.req.submitHeight := by
  induction inputs with
  | nil => intro s hk hs; exact ⟨hk, hs⟩
  | cons i is ih =>
    intro s hk hs
    exact ih (step P cfg s i) (step_WF P cfg s i hk) (step_since P cfg s i hk hs)

theorem oracleCallback_solo (P : Protocol) (cfg : Config) (h : Nat) (c e : Bytes)
    (k : Keeper) (w : Waiting) (hw : w ∈ k.waiting) (hc : w.req.oracleContextID = some c)
    (hsolo : k.Solo w c) :
    ∃ k1, oracleCallback P cfg h c e k = .ok k1 ∧
      k1.resultsFor w.req.id = k.resultsFor w.req.id ++
        [NewRand w.req.id h (MakePRNG P cfg.randPrec (w.seed ++ e)) (w.seed ++ e)] ∧
      w ∉ k1.waiting := by
  unfold oracleCallback
  cases hf : k.waiting.find? (fun x => decide (x.req.oracleContextID = some c)) with
  | none =>
    have := List.find?_eq_none.mp hf w hw
    simp [hc] at this
  | some w0 =>
    have hm := List.mem_of_find?_eq_some hf
    have hp : w0.req.oracleContextID = some c := by simpa using List.find?_some hf
    have hw0 : w0 = w := by
      by_contra hne
      exact (hsolo.2 w0 hm hne).2 hp
    subst hw0
    refine ⟨_, rfl, ?_, ?_⟩
    · simp [Keeper.resultsFor, List.filter_append, NewRand]
    · simp [hp]

/-! ## The claims about the randomness module -/

/-- C2. For every seed input the value `v` produced by the PRNG engine satisfies
`0 ≤ v < 1`; the bound is strict for every value of the interpreted unsigned integer,
which is at most its maximum representable value `maxValue width`, that maximum included.
The value has scale `prec` and `v * 10 ^ prec` is a natural number, so `v` is a decimal
with at most `prec` (`RandPrec`) fractional digits; it is the quotient of the interpreted
integer by `256 ^ width` truncated to that many digits. -/
theorem MakePRNG_range (P : Protocol) (prec : Nat) (seed : Bytes) :
    bytesToNat ((P.mix seed).take P.width) ≤ maxValue P.width ∧
    0 ≤ (MakePRNG P prec seed).toRat ∧ (MakePRNG P prec seed).toRat < 1 ∧
    (MakePRNG P prec seed).scale = prec ∧
    (MakePRNG P prec seed).toRat * 10 ^ prec = ((MakePRNG P prec seed).units : ℚ) ∧
    (MakePRNG P prec seed).toRat ≤
      (bytesToNat ((P.mix seed).take P.width) : ℚ) / 256 ^ P.width ∧
    (bytesToNat ((P.mix seed).take P.width) : ℚ) / 256 ^ P.width <
      (MakePRNG P prec seed).toRat + 1 / 10 ^ prec := by
  have hs : (MakePRNG P prec seed).scale = prec := rfl
  have hp : (0 : ℚ) < (10 : ℚ) ^ prec := by positivity
  have hw : (0 : ℚ) < (256 : ℚ) ^ P.width := by positivity
  obtain ⟨f1, f2⟩ := MakePRNG_units_floor P prec seed
  have g1 : ((MakePRNG P prec seed).units : ℚ) * 256 ^ P.width ≤
      (bytesToNat ((P.mix seed).take P.width) : ℚ) * 10 ^ prec := by exact_mod_cast f1
  have g2 : (bytesToNat ((P.mix seed).take P.width) : ℚ) * 10 ^ prec <
      (((MakePRNG P prec seed).units : ℚ) + 1) * 256 ^ P.width := by exact_mod_cast f2
  have ht : (MakePRNG P prec seed).toRat = ((MakePRNG P prec seed).units : ℚ) / 10 ^ prec := by
    unfold Dec.toRat; rw [hs]
  refine ⟨bytesToNat_le_maxValue _ _ (by simp), ?_, ?_, hs, ?_, ?_, ?_⟩
  · unfold Dec.toRat; positivity
  · rw [Dec_toRat_lt_one, hs]; exact MakePRNG_units_lt P prec seed
  · rw [ht]; field_simp
  · rw [ht, div_le_div_iff₀ hp hw]; exact g1
  · rw [ht, ← add_div, div_lt_div_iff₀ hw hp]; exact g2

/-- Worked example for C2: when the interpreted integer is the maximum representable
value, here `65535` for two bytes, the value at four digits is `0.9999`, below 1. -/
theorem MakePRNG_range_witness :
    bytesToNat ((demoProtocol.mix [255, 255, 7]).take demoProtocol.width) =
      maxValue demoProtocol.width ∧
    MakePRNG demoProtocol 4 [255, 255, 7] = { units := 9999, scale := 4 } ∧
    MakePRNG demoProtocol 4 [1, 0, 7] = { units := 39, scale := 4 } ∧
    (MakePRNG demoProtocol 4 [255, 255, 7]).toRat < 1 :=
  ⟨by decide, by decide, by decide, (MakePRNG_range demoProtocol 4 [255, 255, 7]).2.2.1⟩

/-- C3. Admission invariant: every request that Admission accepts is appended to the
Request Store with `submit_height` the current height, `target_height > submit_height`
and `min_delay ≤ target_height - submit_height ≤ max_delay`; every input that violates
these bounds (delay zero, below `min_delay` or above `max_delay`) makes Admission return
a validation error, and an error carries no new store, so the request is not admitted. -/
theorem admission_delay_bounds (P : Protocol) (cfg : Config) (ctx : TxCtx) (m : MsgRequestRand)
    (k : Keeper) :
    (∀ k1, admission P cfg ctx m k = .ok k1 →
      ∃ r, k1.requests = k.requests ++ [r] ∧ r.submitHeight = ctx.height ∧
        r.targetHeight = ctx.height + m.blockInterval ∧
        r.submitHeight < r.targetHeight ∧
        cfg.minDelay ≤ r.targetHeight - r.submitHeight ∧
        r.targetHeight - r.submitHeight ≤ cfg.maxDelay) ∧
    (m.blockInterval = 0 ∨ m.blockInterval < cfg.minDelay ∨ cfg.maxDelay < m.blockInterval →
      admission P cfg ctx m k = .error .validation) := by
  constructor
  · intro k1 h
    obtain ⟨h0, ⟨hmin, hmax⟩, _, hk⟩ := admission_ok_shape P cfg ctx m k k1 h
    refine ⟨_, by rw [hk], rfl, rfl, ?_, ?_, ?_⟩ <;> simp only [NewRequest] <;> omega
  · exact admission_rejects P cfg ctx m k

/-- Worked example for C3: with minimum delay 3 and maximum delay 10, block interval 5 at
height 100 is accepted with target height 105, block intervals 2 and 11 are rejected. -/
theorem admission_delay_bounds_witness :
    (∃ k1, admission demoProtocol boundedConfig ⟨[7], 100, 0⟩ ⟨[1, 2], 5, false⟩ Keeper.empty
        = .ok k1 ∧
      ∃ r, k1.requests = Keeper.empty.requests ++ [r] ∧ r.submitHeight = 100 ∧
        r.targetHeight = 100 + 5 ∧ r.submitHeight < r.targetHeight ∧
        boundedConfig.minDelay ≤ r.targetHeight - r.submitHeight ∧
        r.targetHeight - r.submitHeight ≤ boundedConfig.maxDelay) ∧
    admission demoProtocol boundedConfig ⟨[7], 100, 0⟩ ⟨[1, 2], 2, false⟩ Keeper.empty
      = .error .validation ∧
    admission demoProtocol boundedConfig ⟨[7], 100, 0⟩ ⟨[1, 2], 11, false⟩ Keeper.empty
      = .error .validation :=
  ⟨⟨_, rfl, (admission_delay_bounds demoProtocol boundedConfig ⟨[7], 100, 0⟩
      ⟨[1, 2], 5, false⟩ Keeper.empty).1 _ rfl⟩,
    (admission_delay_bounds demoProtocol boundedConfig ⟨[7], 100, 0⟩ ⟨[1, 2], 2, false⟩
      Keeper.empty).2 (Or.inr (Or.inl (by decide))),
    (admission_delay_bounds demoProtocol boundedConfig ⟨[7], 100, 0⟩ ⟨[1, 2], 11, false⟩
      Keeper.empty).2 (Or.inr (Or.inr (by decide)))⟩

/-- C5. For every request accepted on a consistent store, submitted at height `s` with
block interval `d`, the stored request (found by `get` under the derived identifier) has `submit_height = s` and
`target_height = s + d`, it is returned by `due (s + d)`, and `due h` returns no request
with its identifier for any other height `h`. -/
theorem submitRequest_target_height (P : Protocol) (cfg : Config) (ctx : TxCtx)
    (m : MsgRequestRand) (k k1 : Keeper) (hk : k.WF)
    (h : submitRequest P cfg ctx m k = .ok k1) :
    ∃ r, k1.get (GenerateRequestID P ctx m.consumer) = some r ∧
      r.submitHeight = ctx.height ∧ r.targetHeight = ctx.height + m.blockInterval ∧
      r ∈ k1.due (ctx.height + m.blockInterval) ∧
      ∀ h1, h1 ≠ ctx.height + m.blockInterval → ∀ x ∈ k1.due h1, x.id ≠ r.id := by
  have ha : admission P cfg ctx m k = .ok k1 := by
    unfold submitRequest at h
    by_cases hv : P.validConsumer m.consumer = true
    · simpa [hv] using h
    · simp [hv] at h
  obtain ⟨_, _, hg, hk1⟩ := admission_ok_shape P cfg ctx m k k1 ha
  have hins : k.insert (NewRequest (GenerateRequestID P ctx m.consumer) m.consumer
      ctx.height (ctx.height + m.blockInterval) m.oracle
      (if m.oracle then some (P.contextID (GenerateRequestID P ctx m.consumer)) else none)) =
      .ok { k with
        requests := k.requests ++ [NewRequest (GenerateRequestID P ctx m.consumer) m.consumer
          ctx.height (ctx.height + m.blockInterval) m.oracle
          (if m.oracle then some (P.contextID (GenerateRequestID P ctx m.consumer)) else none)],
        queue := k.queue ++
          [(ctx.height + m.blockInterval, GenerateRequestID P ctx m.consumer)] } :=
    insert_ok k _ hg
  have hwf0 := WF_insert k _ _ hk (by
    intro hf
    simp only [NewRequest] at hf ⊢
    simp [hf]) hins
  have hwf : k1.WF := by
    rw [hk1]
    exact hwf0
  have hmem : NewRequest (GenerateRequestID P ctx m.consumer) m.consumer
      ctx.height (ctx.height + m.blockInterval) m.oracle
      (if m.oracle then some (P.contextID (GenerateRequestID P ctx m.consumer)) else none)
      ∈ k1.requests := by
    rw [hk1]; simp
  refine ⟨_, get_of_mem k1 hwf _ hmem, rfl, rfl, ?_, ?_⟩
  · rw [due_eq_filter k1 hwf]
    exact List.mem_filter.mpr ⟨hmem, by simp [NewRequest]⟩
  · intro h1 hne x hx he
    rw [due_eq_filter k1 hwf] at hx
    obtain ⟨hx1, hx2⟩ := List.mem_filter.mp hx
    have := id_inj k1 hwf _ _ hx1 hmem he
    rw [this] at hx2
    simp only [NewRequest, decide_eq_true_eq] at hx2
    exact hne hx2.symm

/-- Worked example for C5: block interval 5 at height 100 gives target height 105. -/
theorem submitRequest_target_height_witness :
    ∃ k1, submitRequest demoProtocol demoConfig ⟨[7], 100, 0⟩ ⟨[1, 2], 5, false⟩ Keeper.empty
        = .ok k1 ∧
      ∃ r, k1.get (GenerateRequestID demoProtocol ⟨[7], 100, 0⟩ [1, 2]) = some r ∧
        r.submitHeight = 100 ∧ r.targetHeight = 100 + 5 ∧
        r ∈ k1.due (100 + 5) ∧
        ∀ h1, h1 ≠ 100 + 5 → ∀ x ∈ k1.due h1, x.id ≠ r.id :=
  ⟨_, rfl, submitRequest_target_height demoProtocol demoConfig ⟨[7], 100, 0⟩
    ⟨[1, 2], 5, false⟩ Keeper.empty _ WF_empty rfl⟩

/-- C6. For every native request `r` of a consistent store, the Maturity Processor run at
`r.targetHeight` succeeds, adds exactly one result for `r.id` (with that request
identifier and `height = r.targetHeight`) and in the same step removes the request from
the primary index and from every bucket of the pending queue.  Run at any other height it
adds no result for `r.id`, and run again at any height after the request was processed it
adds no result for `r.id` either, so no request is processed twice. -/
theorem maturity_native_once (P : Protocol) (cfg : Config) (H : Bytes) (k : Keeper)
    (hk : k.WF) (r : Request) (hr : r ∈ k.requests) (hf : r.oracleFlag = false) :
    ∃ k1, maturity P cfg H r.targetHeight k = .ok k1 ∧
      k1.resultsFor r.id = k.resultsFor r.id ++ [nativeRand P cfg H r.targetHeight r] ∧
      (nativeRand P cfg H r.targetHeight r).requestID = r.id ∧
      (nativeRand P cfg H r.targetHeight r).height = r.targetHeight ∧
      k1.get r.id = none ∧ (∀ h1, r.id ∉ k1.bucket h1) ∧
      (∀ H1 h1, h1 ≠ r.targetHeight →
        ∃ k2, maturity P cfg H1 h1 k = .ok k2 ∧ k2.resultsFor r.id = k.resultsFor r.id) ∧
      (∀ H1 h1, ∃ k2, maturity P cfg H1 h1 k1 = .ok k2 ∧
        k2.resultsFor r.id = k1.resultsFor r.id) := by
  obtain ⟨k1, e, hk1, q1, _, q4⟩ := maturity_ok P cfg H r.targetHeight k hk
  have hgone : ∀ x ∈ k1.requests, x.id ≠ r.id := by
    intro x hx he
    rw [q1] at hx
    obtain ⟨hx1, hx2⟩ := List.mem_filter.mp hx
    have := id_inj k hk x r hx1 hr he
    rw [this] at hx2
    simp at hx2
  refine ⟨k1, e, ?_, rfl, rfl, ?_, ?_, ?_, ?_⟩
  · rw [resultsFor_append_native P cfg H r.targetHeight k k1 _ r.id q4]
    have hmem : r ∈ (k.requests.filter (fun x => decide (x.targetHeight = r.targetHeight))).filter
        (fun x => !x.oracleFlag) :=
      List.mem_filter.mpr ⟨List.mem_filter.mpr ⟨hr, by simp⟩, by simp [hf]⟩
    have hn : (((k.requests.filter (fun x => decide (x.targetHeight = r.targetHeight))).filter
        (fun x => !x.oracleFlag)).map Request.id).Nodup :=
      List.Nodup.sublist (List.Sublist.map _
        ((List.filter_sublist _).trans (List.filter_sublist _))) hk.1
    rw [filter_id_singleton _ hn r hmem]
    rfl
  · exact (get_none_iff k1 r.id).mpr hgone
  · intro h1 hm
    obtain ⟨x, hx, _, hxe⟩ := (mem_bucket k1 hk1 h1 r.id).mp hm
    exact hgone x hx hxe
  · intro H1 h1 hne
    apply maturity_resultsFor_unchanged P cfg H1 h1 k hk r.id
    intro x hx he
    left
    rw [id_inj k hk x r hx hr he]
    exact fun h => hne h.symm
  · intro H1 h1
    apply maturity_resultsFor_unchanged P cfg H1 h1 k1 hk1 r.id
    intro x hx he
    exact absurd he (hgone x hx)

/-- Worked example for C6: the native request maturing at height 105. -/
theorem maturity_native_once_witness :
    ∃ k1, maturity demoProtocol demoConfig [4] 105 demoKeeper = .ok k1 ∧
      k1.resultsFor [9] = [nativeRand demoProtocol demoConfig [4] 105 demoRequest] ∧
      k1.get [9] = none ∧ (∀ h1, [9] ∉ k1.bucket h1) := by
  obtain ⟨k1, e, h1, _, _, h2, h3, _⟩ :=
    maturity_native_once demoProtocol demoConfig [4] demoKeeper (by decide) demoRequest
      (List.mem_singleton.mpr rfl) rfl
  exact ⟨k1, e, h1, h2, h3⟩

/-- C7. No starvation: from the empty ledger at height `h0`, after any sequence of
submissions, oracle callbacks and block ends, the Maturity Processor has run for every
block ended (the height is `h0` plus the number of block ends, it never halts), and the
pending-queue bucket of every height up to the last processed height is empty. -/
theorem no_starvation (P : Protocol) (cfg : Config) (h0 : Nat) (inputs : List Input) :
    (run P cfg (Sys.init h0) inputs).height = h0 + countBlocks inputs ∧
    ∀ h, h ≤ (run P cfg (Sys.init h0) inputs).height →
      (run P cfg (Sys.init h0) inputs).keeper.bucket h = [] := by
  obtain ⟨g1, g2, g3⟩ := run_invariant P cfg inputs (Sys.init h0) WF_empty
    (by intro r hr; simp [Sys.init, Keeper.empty] at hr)
  refine ⟨g3, ?_⟩
  intro h hle
  apply List.eq_nil_iff_forall_not_mem.mpr
  intro i hi
  obtain ⟨x, hx, hx1, _⟩ := (mem_bucket _ g1 h i).mp hi
  have := g2 x hx
  omega

/-- Worked example for C7: a request submitted in block 100 with block interval 2 is
drained when block 102 ends. -/
theorem no_starvation_witness :
    (run demoProtocol demoConfig (Sys.init 99)
      [.submit [7] (NewMsgRequestRand [1, 2] 2 false), .endBlock [9], .endBlock [9],
        .endBlock [9]]).height = 102 ∧
    (run demoProtocol demoConfig (Sys.init 99)
      [.submit [7] (NewMsgRequestRand [1, 2] 2 false), .endBlock [9], .endBlock [9],
        .endBlock [9]]).keeper.bucket 102 = [] :=
  ⟨(no_starvation demoProtocol demoConfig 99 _).1,
    (no_starvation demoProtocol demoConfig 99 _).2 102 (by decide)⟩

/-- C8. On a consistent store, `insert r` fails with `DuplicateRequest` when a request
with the identifier of `r` is already present (no new store is produced); otherwise it
succeeds and afterwards `get r.id` returns `r`, `due r.targetHeight` contains `r`, the
bucket of `r.targetHeight` contains `r.id` and no other bucket does, while waiting set and
Result store are as before. -/
theorem insert_spec (k : Keeper) (hk : k.WF) (r : Request) :
    ((k.get r.id).isSome = true → k.insert r = .error .duplicateRequest) ∧
    (k.get r.id = none →
      ∃ k1, k.insert r = .ok k1 ∧ k1.get r.id = some r ∧
        r ∈ k1.due r.targetHeight ∧ r.id ∈ k1.bucket r.targetHeight ∧
        (∀ h, h ≠ r.targetHeight → r.id ∉ k1.bucket h) ∧
        k1.waiting = k.waiting ∧ k1.results = k.results) := by
  constructor
  · intro hs
    obtain ⟨r0, hr0⟩ := Option.isSome_iff_exists.mp hs
    exact insert_dup k r r0 hr0
  · intro hg
    have hget : Keeper.get { k with
        requests := k.requests ++ [r],
        queue := k.queue ++ [(r.targetHeight, r.id)] } r.id = some r := by
      unfold Keeper.get at hg ⊢
      simp only [List.find?_append, hg, Option.none_or]
      simp
    have hb : r.id ∈ Keeper.bucket { k with
        requests := k.requests ++ [r],
        queue := k.queue ++ [(r.targetHeight, r.id)] } r.targetHeight := by
      unfold Keeper.bucket
      simp
    refine ⟨_, insert_ok k r hg, hget, ?_, hb, ?_, rfl, rfl⟩
    · unfold Keeper.due
      exact List.mem_filterMap.mpr ⟨r.id, hb, hget⟩
    · intro h hne hm
      unfold Keeper.bucket at hm
      simp only [List.filter_append, List.map_append, List.mem_append, List.mem_map,
        List.mem_filter, decide_eq_true_eq, List.mem_singleton] at hm
      rcases hm with ⟨e, ⟨he1, _⟩, he3⟩ | ⟨e, ⟨he1, he2⟩, _⟩
      · rw [hk.2.1] at he1
        obtain ⟨x, hx, hxe⟩ := List.mem_map.mp he1
        apply (get_none_iff k r.id).mp hg x hx
        rw [← he3, ← hxe]
      · rw [he1] at he2
        exact hne he2.symm

/-- Worked example for C8: insertion into the empty store. -/
theorem insert_spec_witness :
    ∃ k1, Keeper.empty.insert (NewRequest [9] [1, 2] 100 105 false none) = .ok k1 ∧
      k1.get [9] = some (NewRequest [9] [1, 2] 100 105 false none) ∧
      NewRequest [9] [1, 2] 100 105 false none ∈ k1.due 105 ∧ [9] ∈ k1.bucket 105 ∧
      (∀ h, h ≠ 105 → [9] ∉ k1.bucket h) ∧
      k1.waiting = [] ∧ k1.results = [] :=
  (insert_spec Keeper.empty WF_empty (NewRequest [9] [1, 2] 100 105 false none)).2 rfl

/-- C9. Oracle timeout.  Let `s` be a reachable state in which the request of the waiting
entry `w` is still waiting for its callback, and let no other request share its
identifier or its oracle context identifier `c`.  Then `w` is an oracle-flagged request
whose timeout is counted from its admission (`w.since` is its submit height), and a
callback for `c` would still be accepted and create its result.  When the block
`s.height + 1` ends before `timeout` blocks have passed since admission, the request
stays in the waiting set.  When `timeout` blocks have passed (`submit_height + timeout ≤
s.height + 1`), that block end removes it from the waiting set and emits the failure
notification for it; after any further inputs in which no submission derives the
identifier or `c` again, the results recorded for the identifier are what they were (no
result is ever created for it) and every callback for `c` is rejected as `NotFound`,
leaving the ledger state unchanged. -/
theorem oracle_timeout (P : Protocol) (cfg : Config) (h0 : Nat) (inputs0 : List Input)
    (s : Sys) (w : Waiting) (c H : Bytes)
    (hreach : s = run P cfg (Sys.init h0) inputs0)
    (hw : w ∈ s.keeper.waiting) (hc : w.req.oracleContextID = some c)
    (hsolo : s.keeper.Solo w c) :
    w.req.oracleFlag = true ∧ w.since = w.req.submitHeight ∧
    (∀ e, ∃ k1, oracleCallback P cfg (s.height + 1) c e s.keeper = .ok k1 ∧
      k1.resultsFor w.req.id = s.keeper.resultsFor w.req.id ++
        [NewRand w.req.id (s.height + 1) (MakePRNG P cfg.randPrec (w.seed ++ e))
          (w.seed ++ e)] ∧
      w ∉ k1.waiting) ∧
    (s.height + 1 < w.req.submitHeight + cfg.timeout →
      (step P cfg s (.endBlock H)).height = s.height + 1 ∧
      w ∈ (step P cfg s (.endBlock H)).keeper.waiting) ∧
    (w.req.submitHeight + cfg.timeout ≤ s.height + 1 →
      (step P cfg s (.endBlock H)).height = s.height + 1 ∧
      Event.failed w.req.id w.req.consumer ∈ (step P cfg s (.endBlock H)).keeper.events ∧
      w ∉ (step P cfg s (.endBlock H)).keeper.waiting ∧
      ∀ inputs, noReuse P cfg w.req.id c (step P cfg s (.endBlock H)) inputs = true →
        (run P cfg (step P cfg s (.endBlock H)) inputs).keeper.resultsFor w.req.id =
          s.keeper.resultsFor w.req.id ∧
        ∀ e, oracleCallback P cfg
              ((run P cfg (step P cfg s (.endBlock H)) inputs).height + 1)
              c e (run P cfg (step P cfg s (.endBlock H)) inputs).keeper = .error .notFound ∧
            step P cfg (run P cfg (step P cfg s (.endBlock H)) inputs) (.callback c e) =
              run P cfg (step P cfg s (.endBlock H)) inputs) := by
  obtain ⟨hk, hsince⟩ := run_since P cfg inputs0 (Sys.init h0) WF_empty
    (by intro x hx; simp [Sys.init, Keeper.empty] at hx)
  rw [← hreach] at hk hsince
  obtain ⟨hflag, hsub⟩ := hsince w hw
  have hwf1 := step_WF P cfg s (.endBlock H) hk
  obtain ⟨k1, e, _, q1, q3, q4, q5⟩ := endBlock_ok P cfg H (s.height + 1) s.keeper hk
  have hs1 : step P cfg s (.endBlock H) = { keeper := k1, height := s.height + 1, seq := 0 } := by
    simp only [step, e]
  refine ⟨hflag, hsub, fun e1 => oracleCallback_solo P cfg _ c e1 s.keeper w hw hc hsolo, ?_, ?_⟩
  · intro hearly
    rw [hs1]
    refine ⟨rfl, ?_⟩
    rw [q3]
    apply List.mem_filter.mpr
    refine ⟨List.mem_append.mpr (Or.inl hw), ?_⟩
    simp only [Waiting.expired, Bool.not_eq_true', decide_eq_false_iff_not, not_le]
    omega
  · intro hexp
    have hwexp : w.expired cfg (s.height + 1) = true := by
      simp only [Waiting.expired, decide_eq_true_eq]; omega
    have hgone := endBlock_gone P cfg H (s.height + 1) s.keeper k1 w.req.id c hsolo.1
      (by
        intro x hx hxe
        apply hsolo.2 x hx
        intro hxw
        rw [hxw, hwexp] at hxe
        cases hxe) q1 q3 q4
    rw [hs1] at hwf1 ⊢
    refine ⟨rfl, q5 w hw hwexp, ?_, ?_⟩
    · intro hm
      simp only [q3, List.mem_filter, hwexp] at hm
      simp at hm
    · intro inputs hn
      obtain ⟨g1, g2⟩ := run_gone P cfg w.req.id c inputs _ hwf1 hgone.1 hn
      refine ⟨by rw [g2]; exact hgone.2, ?_⟩
      intro e1
      have hnf := oracleCallback_notFound P cfg
        ((run P cfg { keeper := k1, height := s.height + 1, seq := 0 } inputs).height + 1) c e1
        _ (fun x hx => (g1.2 x hx).2)
      refine ⟨hnf, ?_⟩
      simp only [step, hnf]

/-- Worked example for C9: the oracle request admitted in block 50 with timeout 10 is
still waiting after block 59, fails when block 60 ends (failure notification, removed, no
result), and a callback in block 61 is rejected as `NotFound` without changing state. -/
theorem oracle_timeout_witness :
    demoWaiting.req.submitHeight = 50 ∧ demoConfig.timeout = 10 ∧
    demoOracleRun.height = 59 ∧ demoOracleRun.keeper.waiting = [demoWaiting] ∧
    Event.failed [7, 50, 1, 2, 0] [1, 2] ∉ demoOracleRun.keeper.events ∧
    (step demoProtocol demoConfig demoOracleRun (.endBlock [9])).height = 60 ∧
    Event.failed [7, 50, 1, 2, 0] [1, 2] ∈
      (step demoProtocol demoConfig demoOracleRun (.endBlock [9])).keeper.events ∧
    (step demoProtocol demoConfig demoOracleRun (.endBlock [9])).keeper.waiting = [] ∧
    (step demoProtocol demoConfig demoOracleRun (.endBlock [9])).keeper.resultsFor
      [7, 50, 1, 2, 0] = [] ∧
    oracleCallback demoProtocol demoConfig 61 [0, 7, 50, 1, 2, 0] [5]
      (step demoProtocol demoConfig demoOracleRun (.endBlock [9])).keeper = .error .notFound ∧
    step demoProtocol demoConfig (step demoProtocol demoConfig demoOracleRun (.endBlock [9]))
      (.callback [0, 7, 50, 1, 2, 0] [5]) =
        step demoProtocol demoConfig demoOracleRun (.endBlock [9]) := by
  obtain ⟨_, _, _, _, hB⟩ := oracle_timeout demoProtocol demoConfig 49 (demoOracleInputs 10)
    demoOracleRun demoWaiting [0, 7, 50, 1, 2, 0] [9] rfl (by decide) rfl (by decide)
  obtain ⟨h1, h2, _, h4⟩ := hB (by decide)
  obtain ⟨h5, h6⟩ := h4 [] rfl
  exact ⟨rfl, rfl, by decide, by decide, by decide, h1, h2, by decide, h5, (h6 [5]).1,
    (h6 [5]).2⟩

end RandModule

/-! ## Auxiliary lemmas about the test helpers -/

namespace CliTest

theorem TrimSpace_head (s : Str) (c : Char) (h : (TrimSpace s).head? = some c) :
    IsSpace c = false := by
  unfold TrimSpace at h
  obtain ⟨t, ht⟩ := List.rdropWhile_prefix (p := IsSpace) (l := s.dropWhile IsSpace)
  have h1 := List.head?_dropWhile_not IsSpace s
  cases hT : (s.dropWhile IsSpace).rdropWhile IsSpace with
  | nil => rw [hT] at h; simp at h
  | cons a rest =>
    rw [hT] at h ht
    simp only [List.head?_cons, Option.some.injEq] at h
    rw [← ht] at h1
    simp only [List.cons_append, List.head?_cons] at h1
    rw [← h]
    exact h1

theorem TrimSpace_last (s : Str) (c : Char) (h : (TrimSpace s).getLast? = some c) :
    IsSpace c = false := by
  unfold TrimSpace at h
  have hne : (s.dropWhile IsSpace).rdropWhile IsSpace ≠ [] := by
    intro h0; rw [h0] at h; simp at h
  have h1 := List.rdropWhile_last_not (p := IsSpace) (l := s.dropWhile IsSpace) hne
  rw [List.getLast?_eq_getLast _ hne] at h
  simp only [Option.some.injEq] at h
  rw [← h]
  simpa using h1

theorem TrimSpace_idem (s : Str) : TrimSpace (TrimSpace s) = TrimSpace s := by
  have hd : (TrimSpace s).dropWhile IsSpace = TrimSpace s := by
    rw [List.dropWhile_eq_self_iff]
    intro hl
    have hh : ∀ (l : Str) (h0 : 0 < l.length), l.head? = some (l.get ⟨0, h0⟩) := by
      intro l h0
      cases l with
      | nil => simp at h0
      | cons a rest => rfl
    have := TrimSpace_head s _ (hh _ hl)
    simp only [this, Bool.false_eq_true, not_false_eq_true]
  have : TrimSpace (TrimSpace s) = ((TrimSpace s).dropWhile IsSpace).rdropWhile IsSpace := rfl
  rw [this, hd]
  unfold TrimSpace
  exact List.rdropWhile_idempotent _ _

theorem foldl_flags (fs : List Str) : ∀ cmd : Str,
    fs.foldl (fun cmd f => cmd ++ (" ".toList ++ f)) cmd = withFlags cmd fs := by
  induction fs with
  | nil => intro cmd; rfl
  | cons f fs ih => intro cmd; simp only [List.foldl_cons, withFlags]; exact ih _

theorem foldl_tags (tags : List Str) : ∀ out : Str,
    tags.foldl (fun out tag => out ++ (tag ++ "&".toList)) out =
      out ++ (tags.map (fun t => t ++ ['&'])).flatten := by
  induction tags with
  | nil => intro out; simp
  | cons t ts ih =>
    intro out
    simp only [List.foldl_cons, List.map_cons, List.flatten_cons]
    rw [ih]
    simp [List.append_assoc]

theorem join_tags (t : Str) (ts : List Str) :
    ((t :: ts).map (fun t => t ++ ['&'])).flatten = joinedTags (t :: ts) ++ ['&'] := by
  induction ts generalizing t with
  | nil => simp [joinedTags]
  | cons u us ih =>
    have := ih u
    simp only [List.map_cons, List.flatten_cons] at this ⊢
    rw [this]
    simp [joinedTags]

theorem TrimSuffix_append (x : Str) : TrimSuffix (x ++ ['&']) "&".toList = x := by
  unfold TrimSuffix HasSuffix
  have h1 : "&".toList = ['&'] := rfl
  simp [h1]

theorem joinedTags_intercalate (tags : List Str) :
    joinedTags tags = List.intercalate ['&'] tags := by
  induction tags with
  | nil => rfl
  | cons t ts ih =>
    cases ts with
    | nil => simp [joinedTags, List.intercalate]
    | cons u us =>
      simp only [joinedTags, ih]
      simp [List.intercalate]

theorem joinedTags_length (tags : List Str) :
    (joinedTags tags).length = (tags.map List.length).sum + (tags.length - 1) := by
  induction tags with
  | nil => rfl
  | cons t ts ih =>
    cases ts with
    | nil => simp [joinedTags]
    | cons u us =>
      simp only [joinedTags, List.length_append, List.length_cons, ih, List.map_cons,
        List.sum_cons]
      simp only [List.length_cons, Nat.add_sub_cancel] at *
      omega

theorem splitSep_ne_nil (p : Str) : splitSep p ≠ [] := by
  cases p with
  | nil => simp [splitSep]
  | cons c cs =>
    unfold splitSep
    by_cases hc : c = '/'
    · simp [hc]
    · simp only [hc, if_false]
      cases splitSep cs <;> simp

theorem splitSep_append_sep (a b : Str) :
    splitSep (a ++ '/' :: b) = splitSep a ++ splitSep b := by
  induction a with
  | nil => simp [splitSep]
  | cons c cs ih =>
    by_cases hc : c = '/'
    · simp [splitSep, hc, ih]
    · cases h : splitSep cs with
      | nil => exact absurd h (splitSep_ne_nil cs)
      | cons x xs =>
        have e1 : splitSep ((c :: cs) ++ '/' :: b) =
            (match splitSep (cs ++ '/' :: b) with
              | [] => [[c]]
              | x :: xs => (c :: x) :: xs) := by
          show splitSep (c :: (cs ++ '/' :: b)) = _
          simp only [splitSep, hc, if_false]
        have e2 : splitSep (c :: cs) =
            (match splitSep cs with
              | [] => [[c]]
              | x :: xs => (c :: x) :: xs) := by
          simp only [splitSep, hc, if_false]
        rw [e1, e2, ih, h]
        rfl

theorem splitSep_of_no_sep (e : Str) (h : '/' ∉ e) : splitSep e = [e] := by
  induction e with
  | nil => rfl
  | cons c cs ih =>
    have hc : c ≠ '/' := fun hc => h (by simp [hc])
    have hcs : '/' ∉ cs := fun hm => h (List.mem_cons_of_mem _ hm)
    simp only [splitSep, hc, if_false, ih hcs]

theorem stringsJoin_append (sep : Str) (E F : List Str) (hE : E ≠ []) (hF : F ≠ []) :
    stringsJoin (E ++ F) sep = stringsJoin E sep ++ sep ++ stringsJoin F sep := by
  induction E with
  | nil => exact absurd rfl hE
  | cons x xs ih =>
    cases xs with
    | nil =>
      cases F with
      | nil => exact absurd rfl hF
      | cons y ys => simp [stringsJoin]
    | cons z zs =>
      have := ih (by simp)
      simp only [List.cons_append] at this ⊢
      simp only [stringsJoin, this, List.append_assoc]

theorem isRooted_append (a b : Str) (ha : a ≠ []) : isRooted (a ++ b) = isRooted a := by
  cases a with
  | nil => exact absurd rfl ha
  | cons c cs => rfl

theorem cleanStep_name (r : Bool) (st : List Str) (e : Str) (he : IsName e) :
    cleanStep r st e = e :: st := by
  unfold cleanStep
  simp only [he.1, he.2.1, he.2.2.1, if_false]

theorem foldl_names (r : Bool) (ns : List Str) (hn : ∀ n ∈ ns, IsName n) :
    ∀ st, ns.foldl (cleanStep r) st = ns.reverse ++ st := by
  induction ns with
  | nil => intro st; rfl
  | cons n ns ih =>
    intro st
    simp only [List.foldl_cons, List.reverse_cons, List.append_assoc, List.singleton_append]
    rw [cleanStep_name r st n (hn n (List.mem_cons_self _ _))]
    exact ih (fun m hm => hn m (List.mem_cons_of_mem _ hm)) _

theorem splitSep_stringsJoin (L : List Str) (hL : L ≠ []) (hs : ∀ e ∈ L, '/' ∉ e) :
    splitSep (stringsJoin L ['/']) = L := by
  induction L with
  | nil => exact absurd rfl hL
  | cons x xs ih =>
    cases xs with
    | nil => exact splitSep_of_no_sep x (hs x (List.mem_cons_self _ _))
    | cons y ys =>
      have h1 := ih (by simp) (fun e he => hs e (List.mem_cons_of_mem _ he))
      have h2 : stringsJoin (x :: y :: ys) ['/'] = x ++ '/' :: stringsJoin (y :: ys) ['/'] := by
        simp [stringsJoin]
      rw [h2, splitSep_append_sep, h1, splitSep_of_no_sep x (hs x (List.mem_cons_self _ _))]
      rfl

theorem head_stringsJoin (x : Str) (xs : List Str) (hx : x ≠ []) :
    (stringsJoin (x :: xs) ['/']).head? = x.head? := by
  cases x with
  | nil => exact absurd rfl hx
  | cons c cs =>
    cases xs with
    | nil => rfl
    | cons y ys => simp [stringsJoin]

theorem isRooted_names (ns : List Str) (hn : ∀ n ∈ ns, '/' ∉ n ∧ n ≠ []) :
    isRooted (stringsJoin ns ['/']) = false := by
  cases ns with
  | nil => rfl
  | cons x xs =>
    obtain ⟨h1, h2⟩ := hn x (List.mem_cons_self _ _)
    unfold isRooted
    rw [head_stringsJoin x xs h2]
    cases x with
    | nil => exact absurd rfl h2
    | cons c cs =>
      have hc : c ≠ '/' := fun hc => h1 (by rw [hc]; simp)
      simp [hc]

theorem stringsJoin_ne_nil (ns : List Str) (h0 : ns ≠ []) (hn : ∀ n ∈ ns, n ≠ []) :
    stringsJoin ns ['/'] ≠ [] := by
  cases ns with
  | nil => exact absurd rfl h0
  | cons x xs =>
    have hx := hn x (List.mem_cons_self _ _)
    cases xs with
    | nil => exact hx
    | cons y ys => simp [stringsJoin, hx]

theorem Join_names (h : Str) (ns : List Str) (h0 : ns ≠ []) (hn : ∀ n ∈ ns, IsName n) :
    Join (h :: ns) = renderPath (isRooted h) (cleanElems h ++ ns) := by
  have hsl : ∀ e ∈ ns, '/' ∉ e := fun e he => (hn e he).2.2.2
  have hne : ∀ e ∈ ns, e ≠ [] := fun e he => (hn e he).1
  unfold Join
  by_cases hh : h = []
  · subst hh
    obtain ⟨n, ns1, rfl⟩ := List.exists_cons_of_ne_nil h0
    have hd : (([] : Str) :: n :: ns1).dropWhile (fun e => decide (e = [])) = n :: ns1 := by
      simp [List.dropWhile, hne n (List.mem_cons_self _ _)]
    rw [hd]
    simp only
    unfold Clean
    rw [if_neg (stringsJoin_ne_nil _ h0 hne)]
    have hr := isRooted_names (n :: ns1) (fun e he => ⟨hsl e he, hne e he⟩)
    have he : cleanElems (stringsJoin (n :: ns1) ['/']) = n :: ns1 := by
      unfold cleanElems
      rw [splitSep_stringsJoin _ h0 hsl, foldl_names _ _ hn]
      simp
    rw [hr, he]
    rfl
  · have hd : (h :: ns).dropWhile (fun e => decide (e = [])) = h :: ns := by
      simp [List.dropWhile, hh]
    rw [hd]
    simp only
    obtain ⟨n, ns1, rfl⟩ := List.exists_cons_of_ne_nil h0
    have hj : stringsJoin (h :: n :: ns1) ['/'] = h ++ '/' :: stringsJoin (n :: ns1) ['/'] := by
      simp [stringsJoin]
    rw [hj]
    unfold Clean
    have hne2 : h ++ '/' :: stringsJoin (n :: ns1) ['/'] ≠ [] := by simp
    rw [if_neg hne2, isRooted_append _ _ hh]
    congr 1
    unfold cleanElems
    rw [isRooted_append _ _ hh, splitSep_append_sep, splitSep_stringsJoin _ h0 hsl,
      List.foldl_append, foldl_names _ _ hn]
    simp

theorem renderPath_append (r : Bool) (E F : List Str) (hE : E ≠ []) (hF : F ≠ []) :
    renderPath r (E ++ F) = renderPath r E ++ '/' :: stringsJoin F ['/'] := by
  have hj := stringsJoin_append ['/'] E F hE hF
  unfold renderPath
  simp only [hE, if_false, List.append_eq_nil, false_and]
  cases r
  · simp [hj]
  · simp [hj]

theorem cleanStep_dotdot_nil (r : Bool) :
    cleanStep r [] ['.', '.'] = if r then [] else [['.', '.']] := by
  simp [cleanStep]

theorem cleanStep_dotdot_cons (r : Bool) (top : Str) (rest : List Str) :
    cleanStep r (top :: rest) ['.', '.'] =
      if top = ['.', '.'] then ['.', '.'] :: top :: rest else rest := by
  simp [cleanStep]

theorem cleanStep_ok (r : Bool) (st : List Str) (e : Str) (hs : StackOK r st)
    (he : '/' ∉ e) : StackOK r (cleanStep r st e) := by
  by_cases h1 : e = []
  · simp only [cleanStep, h1, if_true]; exact hs
  by_cases h2 : e = ['.']
  · simp only [cleanStep, h1, h2, if_true, if_false]; exact hs
  by_cases h3 : e = ['.', '.']
  · subst h3
    have hdd : (['.', '.'] : Str) ≠ [] ∧ (['.', '.'] : Str) ≠ ['.'] ∧ '/' ∉ (['.', '.'] : Str) :=
      ⟨by simp, by simp, by simp⟩
    cases st with
    | nil =>
      rw [cleanStep_dotdot_nil]
      cases r
      · refine ⟨?_, by simp, by simp⟩
        intro x hx
        simp only [Bool.false_eq_true, if_false, List.mem_singleton] at hx
        subst hx
        exact hdd
      · exact hs
    | cons top rest =>
      rw [cleanStep_dotdot_cons]
      by_cases ht : top = ['.', '.']
      · simp only [ht, if_true]
        obtain ⟨a1, a2, a3⟩ := hs
        refine ⟨?_, ?_, ?_⟩
        · intro x hx
          rcases List.mem_cons.mp hx with hx | hx
          · subst hx; exact hdd
          · exact a1 x (by rw [ht]; exact hx)
        · intro hr
          have := a2 hr top (List.mem_cons_self _ _)
          exact absurd ht this.2.2.1
        · rw [ht] at a3
          exact List.Chain'.cons (fun _ => rfl) a3
      · simp only [ht, if_false]
        obtain ⟨a1, a2, a3⟩ := hs
        exact ⟨fun x hx => a1 x (List.mem_cons_of_mem _ hx),
          fun hr x hx => a2 hr x (List.mem_cons_of_mem _ hx), a3.tail⟩
  · simp only [cleanStep, h1, h2, h3, if_false]
    obtain ⟨a1, a2, a3⟩ := hs
    refine ⟨?_, ?_, ?_⟩
    · intro x hx
      rcases List.mem_cons.mp hx with hx | hx
      · subst hx; exact ⟨h1, h2, he⟩
      · exact a1 x hx
    · intro hr x hx
      rcases List.mem_cons.mp hx with hx | hx
      · subst hx; exact ⟨h1, h2, h3, he⟩
      · exact a2 hr x hx
    · cases st with
      | nil => simp
      | cons top rest => exact List.Chain'.cons (fun h => absurd h h3) a3

theorem splitSep_no_sep (p : Str) : ∀ e ∈ splitSep p, '/' ∉ e := by
  induction p with
  | nil => intro e he; simp [splitSep] at he; subst he; simp
  | cons c cs ih =>
    intro e he
    by_cases hc : c = '/'
    · simp only [splitSep, hc, if_true, List.mem_cons] at he
      rcases he with he | he
      · subst he; simp
      · exact ih e he
    · cases h : splitSep cs with
      | nil => exact absurd h (splitSep_ne_nil cs)
      | cons x xs =>
        simp only [splitSep, hc, if_false, h, List.mem_cons] at he
        rw [h] at ih
        rcases he with he | he
        · subst he
          intro hm
          rcases List.mem_cons.mp hm with hm | hm
          · exact hc hm.symm
          · exact ih x (List.mem_cons_self _ _) hm
        · exact ih e (List.mem_cons_of_mem _ he)

theorem foldl_ok (r : Bool) (L : List Str) (hL : ∀ e ∈ L, '/' ∉ e) :
    ∀ st, StackOK r st → StackOK r (L.foldl (cleanStep r) st) := by
  induction L with
  | nil => intro st hs; exact hs
  | cons e L ih =>
    intro st hs
    exact ih (fun x hx => hL x (List.mem_cons_of_mem _ hx)) _
      (cleanStep_ok r st e hs (hL e (List.mem_cons_self _ _)))

theorem cleanElems_ok (p : Str) : StackOK (isRooted p) (cleanElems p).reverse := by
  unfold cleanElems
  rw [List.reverse_reverse]
  exact foldl_ok _ _ (splitSep_no_sep p) [] ⟨by simp, by simp, by simp⟩

theorem refold (r : Bool) (L : List Str) :
    ∀ acc, StackOK r (L.reverse ++ acc) → L.foldl (cleanStep r) acc = L.reverse ++ acc := by
  induction L with
  | nil => intro acc _; rfl
  | cons e L ih =>
    intro acc hs
    have hs1 : StackOK r (L.reverse ++ (e :: acc)) := by
      simpa [List.reverse_cons, List.append_assoc] using hs
    have hmem : e ∈ L.reverse ++ (e :: acc) := by simp
    obtain ⟨h1, h2, _⟩ := hs1.1 e hmem
    have hstep : cleanStep r acc e = e :: acc := by
      by_cases h3 : e = ['.', '.']
      · cases acc with
        | nil =>
          cases r
          · rw [h3, cleanStep_dotdot_nil]; rfl
          · exact absurd h3 (hs1.2.1 rfl e hmem).2.2.1
        | cons top rest =>
          have hc := List.Chain'.right_of_append hs1.2.2
          have ht : top = ['.', '.'] := (List.chain'_cons.mp hc).1 h3
          rw [h3, cleanStep_dotdot_cons, ht]
          simp
      · simp only [cleanStep, h1, h2, h3, if_false]
    simp only [List.foldl_cons, hstep, List.reverse_cons, List.append_assoc,
      List.singleton_append]
    exact ih _ hs1

theorem cleanElems_renderPath (r : Bool) (L : List Str) (hL : L ≠ [])
    (hs : StackOK r L.reverse) :
    isRooted (renderPath r L) = r ∧ cleanElems (renderPath r L) = L := by
  have hsl : ∀ e ∈ L, '/' ∉ e := fun e he => (hs.1 e (List.mem_reverse.mpr he)).2.2
  have hne : ∀ e ∈ L, e ≠ [] := fun e he => (hs.1 e (List.mem_reverse.mpr he)).1
  have hfold : L.foldl (cleanStep r) [] = L.reverse := by
    have := refold r L [] (by simpa using hs)
    simpa using this
  cases r with
  | true =>
    have hr : isRooted (renderPath true L) = true := by simp [renderPath, isRooted]
    refine ⟨hr, ?_⟩
    unfold cleanElems
    rw [hr]
    have : splitSep (renderPath true L) = [] :: L := by
      simp only [renderPath, if_true, splitSep]
      rw [splitSep_stringsJoin L hL hsl]
    rw [this]
    simp only [List.foldl_cons]
    have h0 : cleanStep true [] [] = [] := by simp [cleanStep]
    rw [h0, hfold, List.reverse_reverse]
  | false =>
    have hrp : renderPath false L = stringsJoin L ['/'] := by
      simp [renderPath, hL]
    have hr : isRooted (renderPath false L) = false := by
      rw [hrp]
      exact isRooted_names L (fun e he => ⟨hsl e he, hne e he⟩)
    refine ⟨hr, ?_⟩
    unfold cleanElems
    rw [hr, hrp, splitSep_stringsJoin L hL hsl, hfold, List.reverse_reverse]

theorem StackOK_push (r : Bool) (st : List Str) (n : Str) (hs : StackOK r st)
    (hn : IsName n) : StackOK r (n :: st) := by
  have := cleanStep_ok r st n hs hn.2.2.2
  rw [cleanStep_name r st n hn] at this
  exact this

theorem Join_home (t n : Str) (hn : IsName n) :
    Join [t, n] = renderPath (isRooted t) (cleanElems t ++ [n]) ∧
    isRooted (Join [t, n]) = isRooted t ∧
    cleanElems (Join [t, n]) = cleanElems t ++ [n] := by
  have hj := Join_names t [n] (by simp) (by simpa using hn)
  have hs : StackOK (isRooted t) (cleanElems t ++ [n]).reverse := by
    rw [List.reverse_append]
    exact StackOK_push _ _ n (cleanElems_ok t) hn
  have := cleanElems_renderPath (isRooted t) (cleanElems t ++ [n]) (by simp) hs
  rw [hj]
  exact ⟨rfl, this.1, this.2⟩

theorem mapGet_mapSet_same {V : Type} (m : List (Str × V)) (k : Str) (v : V) :
    mapGet (mapSet m k v) k = some v := by
  simp [mapGet, mapSet]

theorem mapGet_mapSet_other {V : Type} (m : List (Str × V)) (k k1 : Str) (v : V)
    (h : k1 ≠ k) : mapGet (mapSet m k v) k1 = mapGet m k1 := by
  unfold mapGet mapSet
  have hk : ¬ (k = k1) := fun e => h e.symm
  rw [List.find?_cons_of_neg _ (by simpa using hk)]
  congr 1
  induction m with
  | nil => rfl
  | cons e m ih =>
    by_cases he : e.1 = k
    · have he1 : ¬ (e.1 = k1) := fun e1 => h (e1.symm.trans he)
      rw [List.filter_cons_of_neg (by simpa using he),
        List.find?_cons_of_neg _ (by simpa using he1)]
      exact ih
    · rw [List.filter_cons_of_pos (by simpa using he)]
      by_cases he1 : e.1 = k1
      · rw [List.find?_cons_of_pos _ (by simpa using he1),
          List.find?_cons_of_pos _ (by simpa using he1)]
      · rw [List.find?_cons_of_neg _ (by simpa using he1),
          List.find?_cons_of_neg _ (by simpa using he1)]
        exact ih

theorem toyCodec_lawful : toyCodec.Lawful :=
  ⟨fun _ => rfl, fun _ => rfl, fun _ => rfl⟩

theorem applyPreProcess_eq_foldlM {Raw : Type} (cdc : Codec Raw) (ps : List (PreProcess Raw)) :
    ∀ genDoc, applyPreProcess cdc ps genDoc = ps.foldlM (fun d q => q cdc d) genDoc := by
  induction ps with
  | nil => intro genDoc; rfl
  | cons p ps ih =>
    intro genDoc
    simp only [applyPreProcess, List.foldlM_cons]
    cases hp : p cdc genDoc with
    | none => rfl
    | some d => exact ih d

/-! ## The claims about the test helpers -/

/-- C11. `Fixtures.Flags` returns the flags for CLI calls: for every fixtures value `f` the
result is exactly `"--home=" ++ f.IriscliHome ++ " --node=" ++ f.RPCAddr`, the fixtures
are left unchanged, and the result is the same for any fixtures that agree with `f` on
`IriscliHome` and `RPCAddr`, whatever their other fields. -/
theorem Flags_spec (f : Fixtures) :
    f.Flags.1 = "--home=".toList ++ f.IriscliHome ++ " --node=".toList ++ f.RPCAddr ∧
    f.Flags.2 = f ∧
    ∀ g : Fixtures, g.IriscliHome = f.IriscliHome → g.RPCAddr = f.RPCAddr →
      g.Flags.1 = f.Flags.1 := by
  refine ⟨rfl, rfl, ?_⟩
  intro g h1 h2
  simp only [Fixtures.Flags, h1, h2]

/-- Worked example for C11: the flags of the fixtures made from `demoEnv`. -/
theorem Flags_spec_witness :
    (NewFixtures demoEnv).Flags.1 =
      "--home=/tmp/iris_integration_x/.iriscli --node=tcp://0.0.0.0:26657".toList :=
  (Flags_spec (NewFixtures demoEnv)).1.trans (by decide)

/-- C12. `Fixtures.GenesisFile` is the path join of `f.IrisdHome`, `config` and
`genesis.json`: it is the path whose elements are the cleaned elements of the node home
directory followed by `config` and `genesis.json` (so it lies under the home directory),
it ends in `config/genesis.json`, and for the fixtures made by `NewFixtures`, whose home
is the join of `RootDir` and `.iris`, it is the home directory followed by
`/config/genesis.json`. -/
theorem GenesisFile_spec (f : Fixtures) :
    f.GenesisFile = Join [f.IrisdHome, "config".toList, "genesis.json".toList] ∧
    f.GenesisFile = renderPath (isRooted f.IrisdHome)
      (cleanElems f.IrisdHome ++ ["config".toList, "genesis.json".toList]) ∧
    (∃ pre, f.GenesisFile = pre ++ "config/genesis.json".toList) ∧
    ∀ e : FixtureEnv,
      (NewFixtures e).RootDir = e.tmpDir ∧
      (NewFixtures e).IrisdHome = Join [(NewFixtures e).RootDir, ".iris".toList] ∧
      (NewFixtures e).GenesisFile =
        (NewFixtures e).IrisdHome ++ "/config/genesis.json".toList := by
  have hnames : ∀ n ∈ ["config".toList, "genesis.json".toList], IsName n := by decide
  have hgen : ∀ h : Str, Join [h, "config".toList, "genesis.json".toList] =
      renderPath (isRooted h) (cleanElems h ++ ["config".toList, "genesis.json".toList]) :=
    fun h => Join_names h _ (by simp) hnames
  have hjoin : stringsJoin ["config".toList, "genesis.json".toList] ['/'] =
      "config/genesis.json".toList := rfl
  refine ⟨rfl, hgen _, ?_, ?_⟩
  · have h2 : f.GenesisFile = _ := hgen f.IrisdHome
    rw [h2]
    by_cases hE : cleanElems f.IrisdHome = []
    · rw [hE]
      cases isRooted f.IrisdHome
      · exact ⟨[], rfl⟩
      · exact ⟨['/'], rfl⟩
    · rw [renderPath_append _ _ _ hE (by simp), hjoin]
      refine ⟨renderPath (isRooted f.IrisdHome) (cleanElems f.IrisdHome) ++ ['/'], ?_⟩
      simp
  · intro e
    refine ⟨rfl, rfl, ?_⟩
    have hiris : IsName ".iris".toList := by decide
    obtain ⟨h1, h2, h3⟩ := Join_home e.tmpDir ".iris".toList hiris
    have hhome : (NewFixtures e).IrisdHome = Join [e.tmpDir, ".iris".toList] := rfl
    have hg : (NewFixtures e).GenesisFile = _ := hgen (NewFixtures e).IrisdHome
    rw [hg, hhome, h2, h3, renderPath_append _ _ _ (by simp) (by simp), hjoin, ← h1]
    rfl

/-- Worked example for C12: the genesis file of the fixtures made from `demoEnv`. -/
theorem GenesisFile_spec_witness :
    (NewFixtures demoEnv).GenesisFile =
      "/tmp/iris_integration_x/.iris/config/genesis.json".toList := by
  have h := ((GenesisFile_spec (NewFixtures demoEnv)).2.2.2 demoEnv).2.2
  rw [h]
  decide

/-- C13. `AddGuardianAddr` modifies only the guardian configuration.  For a codec whose
unmarshalling inverts marshalling and a genesis document whose application state, `auth`
entry and `guardian` entry decode: when the auth genesis state has at least one account,
the call returns a document whose guardian entry decodes to a state in which every
profiler and every trustee has `Address` and `AddedBy` equal to the address of the first
account, with the numbers of profilers and trustees and their other fields unchanged;
the entry of every module other than `guardian` is unchanged and so are the other fields
of the document.  With no auth account the call panics (`none`). -/
theorem AddGuardianAddr_spec {Raw : Type} (cdc : Codec Raw) (hc : cdc.Lawful)
    (genDoc : GenesisDoc Raw) (appState : List (Str × Raw)) (authGenState : AuthGenesis)
    (guardianGenState : GuardianGenesis)
    (h1 : cdc.UnmarshalAppState genDoc.AppState = some appState)
    (h2 : mustUnmarshalEntry cdc.UnmarshalAuth appState authModuleName = some authGenState)
    (h3 : mustUnmarshalEntry cdc.UnmarshalGuardian appState guardianModuleName =
      some guardianGenState) :
    (∀ account rest, authGenState.Accounts = account :: rest →
      ∃ genDoc1 appState1 guardianGenState1,
        AddGuardianAddr cdc genDoc = some genDoc1 ∧
        cdc.UnmarshalAppState genDoc1.AppState = some appState1 ∧
        mustUnmarshalEntry cdc.UnmarshalGuardian appState1 guardianModuleName =
          some guardianGenState1 ∧
        (∀ g ∈ guardianGenState1.Profilers,
          g.Address = account.Address ∧ g.AddedBy = account.Address) ∧
        (∀ g ∈ guardianGenState1.Trustees,
          g.Address = account.Address ∧ g.AddedBy = account.Address) ∧
        guardianGenState1.Profilers.length = guardianGenState.Profilers.length ∧
        guardianGenState1.Trustees.length = guardianGenState.Trustees.length ∧
        guardianGenState1.Profilers.map Guardian.Rest =
          guardianGenState.Profilers.map Guardian.Rest ∧
        guardianGenState1.Trustees.map Guardian.Rest =
          guardianGenState.Trustees.map Guardian.Rest ∧
        (∀ name, name ≠ guardianModuleName → mapGet appState1 name = mapGet appState name) ∧
        genDoc1 = { genDoc with AppState := genDoc1.AppState }) ∧
    (authGenState.Accounts = [] → AddGuardianAddr cdc genDoc = none) := by
  constructor
  · intro account rest hacc
    have hres : AddGuardianAddr cdc genDoc = some { genDoc with
        AppState := cdc.MarshalAppState (mapSet appState guardianModuleName
          (cdc.MarshalGuardian (setGuardians account.GetAddress guardianGenState))) } := by
      simp only [AddGuardianAddr, h1, h2, h3, hacc]
    refine ⟨_, mapSet appState guardianModuleName
        (cdc.MarshalGuardian (setGuardians account.GetAddress guardianGenState)),
      setGuardians account.GetAddress guardianGenState,
      hres, hc.1 _, ?_, ?_, ?_, ?_, ?_, ?_, ?_, ?_, rfl⟩
    · unfold mustUnmarshalEntry
      rw [mapGet_mapSet_same]
      exact hc.2.1 _
    · intro g hg
      obtain ⟨g0, _, rfl⟩ := List.mem_map.mp hg
      exact ⟨rfl, rfl⟩
    · intro g hg
      obtain ⟨g0, _, rfl⟩ := List.mem_map.mp hg
      exact ⟨rfl, rfl⟩
    · simp [setGuardians]
    · simp [setGuardians]
    · simp only [setGuardians, List.map_map]; rfl
    · simp only [setGuardians, List.map_map]; rfl
    · intro name hn
      exact mapGet_mapSet_other _ _ _ _ hn
  · intro hacc
    simp only [AddGuardianAddr, h1, h2, h3, hacc]

/-- Worked example for C13: the guardians of `toyGenesis` get the address of its first
account and the `bank` entry is untouched. -/
theorem AddGuardianAddr_spec_witness :
    ∃ genDoc1 appState1 guardianGenState1,
      AddGuardianAddr toyCodec toyGenesis = some genDoc1 ∧
      toyCodec.UnmarshalAppState genDoc1.AppState = some appState1 ∧
      mustUnmarshalEntry toyCodec.UnmarshalGuardian appState1 guardianModuleName =
        some guardianGenState1 ∧
      guardianGenState1 =
        { Profilers := [{ Address := [1, 2], AddedBy := [1, 2], Rest := [0] }],
          Trustees := [{ Address := [1, 2], AddedBy := [1, 2], Rest := [1] },
                       { Address := [1, 2], AddedBy := [1, 2], Rest := [2] }] } ∧
      mapGet appState1 "bank".toList = some (ToyRaw.bytes [5]) := by
  obtain ⟨d, a, g, h1, h2, h3, _⟩ :=
    (AddGuardianAddr_spec toyCodec toyCodec_lawful toyGenesis _ _ _ rfl rfl rfl).1
      { Address := [1, 2], Rest := [] } [{ Address := [3, 4], Rest := [] }] rfl
  have hd : d = { toyGenesis with
      AppState := toyCodec.MarshalAppState (mapSet
        [(authModuleName, ToyRaw.auth
            { Params := [], Accounts := [{ Address := [1, 2], Rest := [] },
                                         { Address := [3, 4], Rest := [] }] }),
         (guardianModuleName, ToyRaw.guardian
            { Profilers := [{ Address := [9], AddedBy := [9], Rest := [0] }],
              Trustees := [{ Address := [8], AddedBy := [9], Rest := [1] },
                           { Address := [7], AddedBy := [7], Rest := [2] }] }),
         (assetModuleName, ToyRaw.asset
            { TokenState :=
                { Params := { IssueTokenBaseFee := { Denom := "iris".toList, Amount := 5 },
                              Rest := [6] },
                  Tokens := [{ Symbol := "btc".toList, Name := "Bitcoin".toList, Scale := 8,
                               MinUnit := "satoshi".toList, Mintable := false, Rest := [] }] },
              Rest := [] }),
         ("bank".toList, ToyRaw.bytes [5])] guardianModuleName
        (toyCodec.MarshalGuardian (setGuardians [1, 2]
          { Profilers := [{ Address := [9], AddedBy := [9], Rest := [0] }],
            Trustees := [{ Address := [8], AddedBy := [9], Rest := [1] },
                         { Address := [7], AddedBy := [7], Rest := [2] }] }))) } :=
    Option.some.inj (h1.symm.trans rfl)
  subst hd
  have ha := Option.some.inj (h2.symm.trans rfl)
  subst ha
  have hg := Option.some.inj (h3.symm.trans rfl)
  subst hg
  exact ⟨_, _, _, h1, h2, h3, rfl, rfl⟩

/-- C14. For every list of tags, `queryTags` equals the tags joined with a single `&`
between consecutive elements (the empty string for no tag, the tag itself for one tag);
this is `List.intercalate`, and its length is the sum of the lengths of the tags plus one
separator between consecutive tags, so trimming the `&` suffix removes no character of a
tag, also when the last tag ends in `&` or is empty. -/
theorem queryTags_spec (tags : List Str) :
    queryTags tags = joinedTags tags ∧
    queryTags tags = List.intercalate ['&'] tags ∧
    queryTags [] = [] ∧
    (∀ t, queryTags [t] = t) ∧
    (queryTags tags).length = (tags.map List.length).sum + (tags.length - 1) := by
  have h : ∀ ts : List Str, queryTags ts = joinedTags ts := by
    intro ts
    unfold queryTags
    rw [foldl_tags]
    cases ts with
    | nil => rfl
    | cons t ts =>
      rw [List.nil_append, join_tags]
      exact TrimSuffix_append _
  refine ⟨h tags, ?_, h [], fun t => h [t], ?_⟩
  · rw [h, joinedTags_intercalate]
  · rw [h, joinedTags_length]

/-- Worked example for C14: the last tag is empty and the one before ends in `&`. -/
theorem queryTags_spec_witness :
    queryTags ["a".toList, "b&".toList, "".toList] = "a&b&&".toList :=
  (queryTags_spec ["a".toList, "b&".toList, "".toList]).1.trans (by decide)

/-- C15. For every command and list of flags, `addFlags` equals `TrimSpace` applied to the
command followed by each flag in order, each preceded by exactly one space; the result
has neither a leading nor a trailing white-space character, `addFlags cmd []` is
`TrimSpace cmd`, and applying `addFlags` with no flag to a result of `addFlags` changes
nothing. -/
theorem addFlags_spec (cmd : Str) (fs : List Str) :
    addFlags cmd fs = TrimSpace (withFlags cmd fs) ∧
    (∀ c, (addFlags cmd fs).head? = some c → IsSpace c = false) ∧
    (∀ c, (addFlags cmd fs).getLast? = some c → IsSpace c = false) ∧
    addFlags cmd [] = TrimSpace cmd ∧
    addFlags (addFlags cmd fs) [] = addFlags cmd fs := by
  have h1 : addFlags cmd fs = TrimSpace (withFlags cmd fs) := by
    unfold addFlags; rw [foldl_flags]
  refine ⟨h1, ?_, ?_, rfl, ?_⟩
  · intro c hc
    rw [h1] at hc
    exact TrimSpace_head _ c hc
  · intro c hc
    rw [h1] at hc
    exact TrimSpace_last _ c hc
  · rw [h1]
    exact TrimSpace_idem _

/-- Worked example for C15: the command of `KeysDelete` with the flags `-y` and `-f`. -/
theorem addFlags_spec_witness :
    addFlags " iriscli keys delete --home=/h foo".toList ["-y".toList, "-f".toList] =
      "iriscli keys delete --home=/h foo -y -f".toList :=
  (addFlags_spec " iriscli keys delete --home=/h foo".toList
    ["-y".toList, "-f".toList]).1.trans (by decide)

/-- C16. For a codec whose unmarshalling inverts marshalling and a genesis document whose
application state and `asset` entry decode, `ModifyAssetParam` returns a document whose
asset entry decodes to a state in which the token list is the previous list followed by
exactly one new token (symbol and min unit the default bond denom, name `IRIS Network`,
scale 0, mintable), `IssueTokenBaseFee` is 30 units of that min unit, and nothing else of
the asset state is changed; the entry of every module other than `asset` is unchanged and
so are the other fields of the document. -/
theorem ModifyAssetParam_spec {Raw : Type} (cdc : Codec Raw) (hc : cdc.Lawful)
    (genDoc : GenesisDoc Raw) (appState : List (Str × Raw)) (assetGenState : AssetGenesis)
    (h1 : cdc.UnmarshalAppState genDoc.AppState = some appState)
    (h2 : mustUnmarshalEntry cdc.UnmarshalAsset appState assetModuleName =
      some assetGenState) :
    ∃ genDoc1 appState1 assetGenState1,
      ModifyAssetParam cdc genDoc = some genDoc1 ∧
      cdc.UnmarshalAppState genDoc1.AppState = some appState1 ∧
      mustUnmarshalEntry cdc.UnmarshalAsset appState1 assetModuleName =
        some assetGenState1 ∧
      assetGenState1.TokenState.Tokens = assetGenState.TokenState.Tokens ++ [stakeToken] ∧
      stakeToken.Symbol = DefaultBondDenom ∧ stakeToken.MinUnit = DefaultBondDenom ∧
      stakeToken.Name = "IRIS Network".toList ∧ stakeToken.Scale = 0 ∧
      stakeToken.Mintable = true ∧
      assetGenState1.TokenState.Params.IssueTokenBaseFee =
        { Denom := stakeToken.MinUnit, Amount := 30 } ∧
      assetGenState1.TokenState.Params.Rest = assetGenState.TokenState.Params.Rest ∧
      assetGenState1.Rest = assetGenState.Rest ∧
      (∀ name, name ≠ assetModuleName → mapGet appState1 name = mapGet appState name) ∧
      genDoc1 = { genDoc with AppState := genDoc1.AppState } := by
  have hfee : NewCoin stakeToken.MinUnit 30 = some { Denom := stakeToken.MinUnit, Amount := 30 } := by
    decide
  have hres : ModifyAssetParam cdc genDoc = some { genDoc with
      AppState := cdc.MarshalAppState (mapSet appState assetModuleName
        (cdc.MarshalAsset (withStakeToken { Denom := stakeToken.MinUnit, Amount := 30 }
          assetGenState))) } := by
    simp only [ModifyAssetParam, h1, h2, hfee]
  refine ⟨_, mapSet appState assetModuleName
      (cdc.MarshalAsset (withStakeToken { Denom := stakeToken.MinUnit, Amount := 30 }
        assetGenState)),
    withStakeToken { Denom := stakeToken.MinUnit, Amount := 30 } assetGenState,
    hres, hc.1 _, ?_, rfl, rfl, rfl, rfl, rfl, rfl, rfl, rfl, rfl, ?_, rfl⟩
  · unfold mustUnmarshalEntry
    rw [mapGet_mapSet_same]
    exact hc.2.2 _
  · intro name hn
    exact mapGet_mapSet_other _ _ _ _ hn

/-- Worked example for C16: the token list of `toyGenesis` grows by the stake token and
the `bank` entry is untouched. -/
theorem ModifyAssetParam_spec_witness :
    ∃ genDoc1 appState1 assetGenState1,
      ModifyAssetParam toyCodec toyGenesis = some genDoc1 ∧
      toyCodec.UnmarshalAppState genDoc1.AppState = some appState1 ∧
      mustUnmarshalEntry toyCodec.UnmarshalAsset appState1 assetModuleName =
        some assetGenState1 ∧
      assetGenState1.TokenState.Tokens =
        [{ Symbol := "btc".toList, Name := "Bitcoin".toList, Scale := 8,
           MinUnit := "satoshi".toList, Mintable := false, Rest := [] }] ++ [stakeToken] ∧
      assetGenState1.TokenState.Params.IssueTokenBaseFee =
        { Denom := "stake".toList, Amount := 30 } ∧
      mapGet appState1 "bank".toList = some (ToyRaw.bytes [5]) := by
  obtain ⟨d, a, g, h1, h2, h3, h4, _, _, _, _, _, h5, _, _, h6, _⟩ :=
    ModifyAssetParam_spec toyCodec toyCodec_lawful toyGenesis _ _ rfl rfl
  exact ⟨d, a, g, h1, h2, h3, h4, h5, (h6 _ (by decide)).trans rfl⟩

/-- C17. `Fixtures.DoPreProcess` with no preprocessor returns at once: fixtures, files and
the log of file accesses are unchanged, so the genesis file is neither loaded nor
exported.  With preprocessors `p :: ps` it succeeds exactly when the genesis file exists
and decodes, the preprocessors applied in argument order to that one document all succeed,
and the result encodes; then the fixtures are unchanged, the genesis file holds the
encoded result, and the log grows by exactly one read followed by one write of the genesis
file. -/
theorem DoPreProcess_spec {Raw File : Type} (host : Host Raw File) (f : Fixtures)
    (w : World File) :
    f.DoPreProcess host [] w = some (f, w) ∧
    ∀ (p : PreProcess Raw) (ps : List (PreProcess Raw)) (r : Fixtures × World File),
      f.DoPreProcess host (p :: ps) w = some r ↔
        ∃ bz genDoc genDoc1 bz1,
          mapGet w.files f.GenesisFile = some bz ∧
          host.decodeGenesis bz = some genDoc ∧
          (p :: ps).foldlM (fun d q => q host.MakeCodec d) genDoc = some genDoc1 ∧
          host.encodeGenesis genDoc1 = some bz1 ∧
          r = (f, { files := mapSet w.files f.GenesisFile bz1,
                    log := w.log ++ [FileOp.read f.GenesisFile, FileOp.write f.GenesisFile] }) := by
  refine ⟨rfl, ?_⟩
  intro p ps r
  have hlen : ¬ ((p :: ps).length = 0) := by simp
  unfold Fixtures.DoPreProcess
  rw [if_neg hlen]
  unfold GenesisDocFromFile ExportGenesisFile
  simp only [applyPreProcess_eq_foldlM]
  constructor
  · intro h
    cases hb : mapGet w.files f.GenesisFile with
    | none => rw [hb] at h; simp at h
    | some bz =>
      rw [hb] at h
      simp only at h
      cases hd : host.decodeGenesis bz with
      | none => rw [hd] at h; simp at h
      | some genDoc =>
        rw [hd] at h
        simp only at h
        cases ha : (p :: ps).foldlM (fun d q => q host.MakeCodec d) genDoc with
        | none => rw [ha] at h; simp at h
        | some genDoc1 =>
          rw [ha] at h
          simp only at h
          cases he : host.encodeGenesis genDoc1 with
          | none => rw [he] at h; simp at h
          | some bz1 =>
            rw [he] at h
            simp only [Option.some.injEq] at h
            refine ⟨bz, genDoc, genDoc1, bz1, rfl, hd, ha, he, ?_⟩
            rw [← h]
            simp
  · rintro ⟨bz, genDoc, genDoc1, bz1, hb, hd, ha, he, hr⟩
    rw [hb]
    simp only
    rw [hd]
    simp only
    rw [ha]
    simp only
    rw [he, hr]
    simp

/-- Worked example for C17: the call of `InitFixtures`,
`DoPreProcess(AddGuardianAddr, ModifyAssetParam)`, on the world whose genesis file holds
`toyGenesis`. -/
theorem DoPreProcess_spec_witness :
    ∃ w1, (NewFixtures demoEnv).DoPreProcess toyHost [AddGuardianAddr, ModifyAssetParam]
        toyWorld = some (NewFixtures demoEnv, w1) ∧
      w1.log = [FileOp.read (NewFixtures demoEnv).GenesisFile,
                FileOp.write (NewFixtures demoEnv).GenesisFile] :=
  ⟨_, ((DoPreProcess_spec toyHost (NewFixtures demoEnv) toyWorld).2 AddGuardianAddr
      [ModifyAssetParam] _).mpr ⟨toyGenesis, toyGenesis, _, _, rfl, rfl, rfl, rfl, rfl⟩, rfl⟩

end CliTest

/-! ## The claim about the flag names -/

namespace GovCli

/-- C18. The 28 flag-name constants of the governance CLI are non-empty and pairwise
distinct strings. -/
theorem flags_distinct :
    allFlags.length = 28 ∧ (∀ s ∈ allFlags, s ≠ "") ∧ allFlags.Nodup := by
  refine ⟨rfl, ?_, ?_⟩
  · decide
  · decide

end GovCli
